import Mathlib

/-!
Verification of the HTML article extraction pipeline of `app/extract.py`
(jw-news-reader).  The Python functions are shallowly embedded as executable
Lean definitions: strings are manipulated through structural functions on
`List Char`, the DOM is a finite rose tree, in-place mutation of the
BeautifulSoup tree (`decompose`, `insert_after`, attribute updates) is
modelled as pure tree rewriting with the same net effect on the tree.
-/

namespace JWNews

/-! ## String primitives (models of Python `str` operations, ASCII level) -/

/-- Characters stripped by Python `str.strip()` / `str.split()` (ASCII part). -/
def isPyWs (c : Char) : Bool :=
  c == ' ' || c == '\t' || c == '\n' || c == '\r' || c == '\x0b' || c == '\x0c'

/-- ASCII lower-casing of one character, as Python `str.lower`/`str.casefold`
do on ASCII text (all text this program compares is ASCII). -/
def lowChar (c : Char) : Char :=
  if 'A' ≤ c ∧ c ≤ 'Z' then Char.ofNat (c.toNat + 32) else c

def lowL (l : List Char) : List Char := l.map lowChar

def trimLeftL (l : List Char) : List Char := l.dropWhile (fun c => isPyWs c)

def trimRightL (l : List Char) : List Char :=
  (l.reverse.dropWhile (fun c => isPyWs c)).reverse

/-- Python `str.strip()`. -/
def pyStripL (l : List Char) : List Char := trimRightL (trimLeftL l)

/-- Does `pat` occur at the start of `l`? -/
def startsWithL : List Char → List Char → Bool
  | [], _ => true
  | _ :: _, [] => false
  | a :: as, b :: bs => a == b && startsWithL as bs

/-- Python `pat in l` substring containment. -/
def containsL (pat : List Char) : List Char → Bool
  | [] => pat.isEmpty
  | c :: r => startsWithL pat (c :: r) || containsL pat r

/-- Does `l` end with `sfx` (Python `str.endswith`)? -/
def endsWithL (sfx l : List Char) : Bool := startsWithL sfx.reverse l.reverse

/-- Python `sep.join(parts)`. -/
def interL (sep : List Char) : List (List Char) → List Char
  | [] => []
  | [p] => p
  | p :: q :: r => p ++ sep ++ interL sep (q :: r)

/-- Python `str.split(sep)` for a one-character separator. -/
def splitCL (sep : Char) : List Char → List (List Char)
  | [] => [[]]
  | c :: r =>
    let rest := splitCL sep r
    if c == sep then [] :: rest
    else
      match rest with
      | [] => [[c]]
      | h :: t => (c :: h) :: t

/-- Python `str.split()` (split on whitespace runs, dropping empty pieces);
`acc` carries the current word reversed. -/
def pySplitWsAux (acc : List Char) : List Char → List (List Char)
  | [] => if acc.isEmpty then [] else [acc.reverse]
  | c :: r =>
    if isPyWs c then
      if acc.isEmpty then pySplitWsAux [] r else acc.reverse :: pySplitWsAux [] r
    else pySplitWsAux (c :: acc) r

def pySplitWs (l : List Char) : List (List Char) := pySplitWsAux [] l

/-- Python `" ".join(text.split())` — whitespace normalization. -/
def collapseWsL (l : List Char) : List Char := interL [' '] (pySplitWs l)

/-- String-level wrappers used in statements. -/
def lowS (s : String) : String := ⟨lowL s.data⟩

def strEndsWith (s sfx : String) : Bool := endsWithL sfx.data s.data

def strContains (s pat : String) : Bool := containsL pat.data s.data

/-! ## URL validation (`validate_url`, `app/extract.py` lines 36-43)

`urlparse` is modelled by its output: a record holding the `scheme` and
`hostname` components of the parsed URL.  As in Python's `urllib.parse`,
both components are already lower-cased by the parser; `validate_url`
lower-cases the host once more, which the embedding keeps. -/

structure ParsedUrl where
  scheme : String
  hostname : Option String

/-- Embedding of `validate_url`: `ExtractionError` (the spec's `InvalidURL`
class) is the `Except.error` branch, carrying the Python message;
`host = (parsed.hostname or "").lower()` is inlined at both uses. -/
def validate_url (u : ParsedUrl) : Except String Unit :=
  if u.scheme ≠ "https" then Except.error "Only https URLs are allowed"
  else if lowS (u.hostname.getD "") = "jw.org" ∨
      strEndsWith (lowS (u.hostname.getD "")) ".jw.org" then Except.ok ()
  else Except.error "Only jw.org URLs are allowed"

/-- The spec's wording of the trusted-host condition: the (case-insensitively
lower-cased) hostname is the registrable domain `jw.org` itself, or a proper
subdomain of it, i.e. some non-empty label sequence followed by the exact
suffix `".jw.org"` — not a mere substring match. -/
def IsTrustedJwHost (h : Option String) : Prop :=
  lowS (h.getD "") = "jw.org" ∨ ∃ p : String, lowS (h.getD "") = p ++ ".jw.org"

/-! ## Blank-line collapsing (`_html_to_markdown`, lines 551-556)

`re.sub(r"\n{3,}", "\n\n", markdown)`: every maximal run of three or more
consecutive newline characters is replaced by exactly two newlines.  The
single pass below accumulates the length `k` of the current newline run and
emits it on the next non-newline character (or at the end). -/

def emitNl (k : Nat) : List Char :=
  if 3 ≤ k then ['\n', '\n'] else List.replicate k '\n'

def collapseNlAux (k : Nat) : List Char → List Char
  | [] => emitNl k
  | c :: r =>
    if c == '\n' then collapseNlAux (k + 1) r
    else emitNl k ++ c :: collapseNlAux 0 r

def collapseNlL (l : List Char) : List Char := collapseNlAux 0 l

/-- The blank-line collapsing step of `_html_to_markdown`. -/
def collapse_blank_lines (s : String) : String := ⟨collapseNlL s.data⟩

/-- Does the text contain a run of three or more consecutive newlines,
i.e. the substring `"\n\n\n"`? -/
def hasTripleNl (l : List Char) : Bool := containsL ['\n', '\n', '\n'] l

/-- Normal form stated by the amended claim: each maximal run of `n`
consecutive newline characters is replaced by `min n 2` newlines — runs of
three or more newlines become exactly one blank line, shorter runs are kept. -/
def emitNlMin (k : Nat) : List Char := List.replicate (min k 2) '\n'

def normNlAux (k : Nat) : List Char → List Char
  | [] => emitNlMin k
  | c :: r =>
    if c == '\n' then normNlAux (k + 1) r
    else emitNlMin k ++ c :: normNlAux 0 r

def normNl (l : List Char) : List Char := normNlAux 0 l

/-- Longest run of consecutive lines satisfying `p` in a line list. -/
def maxRunAux (p : List Char → Bool) (cur best : Nat) : List (List Char) → Nat
  | [] => max cur best
  | x :: r =>
    if p x then maxRunAux p (cur + 1) best r
    else maxRunAux p 0 (max cur best) r

/-- Longest run of consecutive empty lines (blank lines) of a string, the
lines being the pieces between `'\n'` separators. -/
def maxEmptyLineRun (s : String) : Nat :=
  maxRunAux (fun x => x.isEmpty) 0 0 (splitCL '\n' s.data)

/-! ## CDN image-URL scoring (`_score_image_url`, lines 286-291, and
`_pick_best_image_url`, lines 294-299)

`_score_image_url` searches the URL for the first (leftmost) occurrence of
the pattern `_(xs|s|m|l|xl)(?:\b|\.|_)`, case-insensitively, and maps the
captured size token to 1..5 (no match scores 0).  The lookahead after the
token fails only when the next character is an ASCII alphanumeric (a word
character other than `_`; `.` and `_` are accepted explicitly, any other
non-word character satisfies the word boundary; the URLs scanned here are
ASCII). -/

def isAsciiAlphanum (c : Char) : Bool :=
  ('a' ≤ c && c ≤ 'z') || ('A' ≤ c && c ≤ 'Z') || ('0' ≤ c && c ≤ '9')

def sizeEdge : List Char → Bool
  | [] => true
  | c :: _ => !(isAsciiAlphanum c)

/-- The regex alternation `(xs|s|m|l|xl)` tried at the position after `_`,
alternatives in the regex's left-to-right order, each followed by the
boundary check. -/
def altScore : List Char → Option Nat
  | c :: d :: r =>
    if lowChar c == 'x' && lowChar d == 's' && sizeEdge r then some 1
    else if lowChar c == 's' && sizeEdge (d :: r) then some 2
    else if lowChar c == 'm' && sizeEdge (d :: r) then some 3
    else if lowChar c == 'l' && sizeEdge (d :: r) then some 4
    else if lowChar c == 'x' && lowChar d == 'l' && sizeEdge r then some 5
    else none
  | [c] =>
    if lowChar c == 's' then some 2
    else if lowChar c == 'm' then some 3
    else if lowChar c == 'l' then some 4
    else none
  | [] => none

/-- Leftmost-position scan of `re.search`: at each `_` try the alternation;
the first position where the whole pattern matches yields the score. -/
def scoreScan : List Char → Nat
  | [] => 0
  | c :: r =>
    if c == '_' then
      match altScore r with
      | some k => k
      | none => scoreScan r
    else scoreScan r

def score_image_url (u : String) : Nat := scoreScan u.data

/-- Embedding of `_pick_best_image_url`.  The Python enumerates the URLs,
sorts ascending by the key `(score, -index)` and returns the last element —
the entry with the lexicographically greatest `(score, -index)`, i.e. the
greatest score and, among entries of equal score, the least index (the
earliest occurrence).  The fold computes that maximum directly: a later
entry replaces the current best only when its score is strictly greater. -/
def pickBestAux (best : String) (bestScore : Nat) : List String → String
  | [] => best
  | u :: r =>
    if bestScore < score_image_url u then pickBestAux u (score_image_url u) r
    else pickBestAux best bestScore r

def pick_best_image_url : List String → Option String
  | [] => none
  | u :: r => some (pickBestAux u (score_image_url u) r)

/-! ## Title heading rewrite (`_ensure_markdown_title`, lines 215-228)

The embedding fixes `'\n'` as the line separator: the rendered markdown the
function receives comes from `_html_to_markdown`, which joins and strips
with plain newlines, so Python's `splitlines` / `"\n".join` agree with
splitting and joining on `'\n'` there. -/

def splitNlL (l : List Char) : List (List Char) := splitCL '\n' l

def joinNlL (ls : List (List Char)) : List Char := interL ['\n'] ls

/-- The replacement line `f"# {title}"`. -/
def hashTitle (t : List Char) : List Char := '#' :: ' ' :: t

/-- The loop of `_ensure_markdown_title` over the line list: skip blank
lines; at the first non-blank line return `none` (markdown unchanged) when
its stripped text is already `"# title"` or is anything other than the
title, and return the rewritten line list when it equals the title. -/
def emtGo (t : List Char) : List (List Char) → Option (List (List Char))
  | [] => none
  | l :: ls =>
    if (pyStripL l).isEmpty then
      match emtGo t ls with
      | some ls2 => some (l :: ls2)
      | none => none
    else if pyStripL l == hashTitle t then none
    else if pyStripL l == t then some (hashTitle t :: ls)
    else none

def ensure_markdown_title (markdown : String) (title : Option String) : String :=
  match title with
  | none => markdown
  | some t =>
    if t = "" then markdown
    else
      match emtGo t.data (splitNlL markdown.data) with
      | none => markdown
      | some ls => ⟨joinNlL ls⟩

/-- Stripped text of the first non-blank line of a line list, if any. -/
def firstNonBlankStripped : List (List Char) → Option (List Char)
  | [] => none
  | l :: ls =>
    if (pyStripL l).isEmpty then firstNonBlankStripped ls
    else some (pyStripL l)

/-! ## DOM model

BeautifulSoup's parse tree is modelled as a rose tree of element and text
nodes.  `nid` models Python object identity (`is`): the title node recorded
by `extract_from_html` is referred to by its `nid`.  In-place mutation
(`decompose`, `insert_after`, attribute assignment) is modelled by pure
rewriting with the same net effect on the tree. -/

inductive Node where
  | elem (nid : Nat) (tag : String) (attrs : List (String × String)) (children : List Node)
  | txt (s : String)

def childrenOf : Node → List Node
  | .elem _ _ _ cs => cs
  | .txt _ => []

def nidOf : Node → Option Nat
  | .elem i _ _ _ => some i
  | .txt _ => none

/-- Attribute lookup (`tag.get(key)`): first binding wins, as in a dict. -/
def getAttr : List (String × String) → String → Option String
  | [], _ => none
  | (k, v) :: r, key => if k == key then some v else getAttr r key

def getAttrD (a : List (String × String)) (k : String) : String :=
  (getAttr a k).getD ""

/-- `tag.get(key)` filtered through Python truthiness (`None` and `""` are
falsy), as used by the `x or y` chains in `_normalize_img_tag`. -/
def getTruthy (a : List (String × String)) (k : String) : Option String :=
  match getAttr a k with
  | some v => if v = "" then none else some v
  | none => none

def orOpt (a b : Option String) : Option String :=
  match a with
  | some v => some v
  | none => b

mutual
/-- Raw text-node contents of a subtree, in document order. -/
def textsN : Node → List String
  | .txt s => [s]
  | .elem _ _ _ cs => textsL cs
def textsL : List Node → List String
  | [] => []
  | c :: r => textsN c ++ textsL r
end

/-- `tag.get_text(" ", strip=True)`: each text fragment stripped, empty
fragments dropped, the rest joined by single spaces. -/
def getTextS (n : Node) : List Char :=
  interL [' '] (((textsN n).map (fun s => pyStripL s.data)).filter (fun l => !l.isEmpty))

def textLen (n : Node) : Nat := (getTextS n).length

mutual
/-- First element of the given tag in pre-order (`soup.find(name)`). -/
def findTagN (name : String) : Node → Option Node
  | .txt _ => none
  | .elem i tg a cs =>
    if tg == name then some (Node.elem i tg a cs) else findTagL name cs
def findTagL (name : String) : List Node → Option Node
  | [] => none
  | c :: r =>
    match findTagN name c with
    | some x => some x
    | none => findTagL name r
end

mutual
/-- All elements of the given tag in pre-order (`soup.find_all(name)`). -/
def findAllN (name : String) : Node → List Node
  | .txt _ => []
  | .elem i tg a cs =>
    (if tg == name then [Node.elem i tg a cs] else []) ++ findAllL name cs
def findAllL (name : String) : List Node → List Node
  | [] => []
  | c :: r => findAllN name c ++ findAllL name r
end

mutual
/-- Does the element id `k` occur in the subtree? -/
def occursIdN (k : Nat) : Node → Bool
  | .txt _ => false
  | .elem i _ _ cs => i == k || occursIdL k cs
def occursIdL (k : Nat) : List Node → Bool
  | [] => false
  | c :: r => occursIdN k c || occursIdL k r
end

mutual
/-- All element nodes of a subtree in pre-order (the subtree root first). -/
def elemsN : Node → List Node
  | .txt _ => []
  | .elem i tg a cs => Node.elem i tg a cs :: elemsL cs
def elemsL : List Node → List Node
  | [] => []
  | c :: r => elemsN c ++ elemsL r
end

/-! ## URL resolution (model of `urllib.parse.urljoin`)

Modelled for the hierarchical `http(s)` URLs this program handles: scheme
and authority are parsed, absolute references are returned as they are,
network-path, absolute-path and relative-path references are resolved
against the base.  Query/fragment parts are carried as part of the path and
Python's additional `.`/`..` segment normalization is not modelled — neither
affects whether a result is absolute, nor any URL in this development. -/

def isAlphaChar (c : Char) : Bool :=
  ('a' ≤ c && c ≤ 'z') || ('A' ≤ c && c ≤ 'Z')

def isSchemeChar (c : Char) : Bool :=
  isAsciiAlphanum c || c == '+' || c == '-' || c == '.'

/-- Split `"scheme:rest"` into `(scheme, rest)` when a valid scheme is
present (letters/digits/`+`/`-`/`.` starting with a letter, then `:`). -/
def schemeSplit (l : List Char) : Option (List Char × List Char) :=
  match l.takeWhile isSchemeChar, l.dropWhile isSchemeChar with
  | c :: sch, d :: rest =>
    if d = ':' ∧ isAlphaChar c then some (c :: sch, rest) else none
  | _, _ => none

def isAbsoluteUrl (u : String) : Bool := (schemeSplit u.data).isSome

/-- Split the part after `"scheme:"` into its authority (when it starts
with `"//"`) and the rest. -/
def netlocSplit : List Char → Option (List Char) × List Char
  | '/' :: '/' :: r =>
    (some (r.takeWhile (fun c => !(c == '/'))), r.dropWhile (fun c => !(c == '/')))
  | l => (none, l)

/-- The base path up to and including its last `/`, or `[]` when it has
none. -/
def dirPart (path : List Char) : List Char :=
  (path.reverse.dropWhile (fun c => !(c == '/'))).reverse

/-- Resolution against a parsed base `scheme brest`; always yields
`bsch ++ ":" ++ tail`. -/
def joinTail (brest u : List Char) : List Char :=
  match netlocSplit u with
  | (some unet, upath) => '/' :: '/' :: unet ++ upath
  | (none, upath) =>
    if upath.isEmpty then brest
    else
      match netlocSplit brest with
      | (bnet, bpath) =>
        match upath with
        | '/' :: _ => '/' :: '/' :: bnet.getD [] ++ upath
        | _ =>
          let bdir := dirPart bpath
          '/' :: '/' :: bnet.getD [] ++ (if bdir.isEmpty then '/' :: upath else bdir ++ upath)

def urljoinL (b u : List Char) : List Char :=
  if u.isEmpty then b
  else
    match schemeSplit u with
    | some (usch, urest) =>
      match schemeSplit b with
      | some (bsch, brest) =>
        if lowL usch = lowL bsch then bsch ++ ':' :: joinTail brest urest
        else u
      | none => u
    | none =>
      match schemeSplit b with
      | some (bsch, brest) => bsch ++ ':' :: joinTail brest u
      | none => u

def urljoin (base url : String) : String := ⟨urljoinL base.data url.data⟩

/-! ## Responsive source-set resolution (`_best_src_from_srcset`, lines 263-283) -/

/-- Numeric value of a digit string. -/
def digitsVal (l : List Char) : Nat :=
  l.foldl (fun acc c => 10 * acc + (c.toNat - 48)) 0

/-- An unnormalized fraction `num / den` (`den > 0` for parsed values),
standing for the finite decimal values Python `float` takes here; kept
unreduced so every operation is kernel-computable. -/
structure PyFloat where
  num : Int
  den : Nat

/-- Numeric order on the fraction values (cross multiplication). -/
def pfLe (a b : PyFloat) : Bool := a.num * (b.den : Int) ≤ b.num * (a.den : Int)

def pfZero : PyFloat := ⟨0, 1⟩

def pfNeg (a : PyFloat) : PyFloat := ⟨-a.num, a.den⟩

/-- Scale a fraction by `10 ^ e`. -/
def pfTimesPow10 (a : PyFloat) (e : Int) : PyFloat :=
  match e with
  | Int.ofNat n => ⟨a.num * (10 ^ n : Nat), a.den⟩
  | Int.negSucc n => ⟨a.num, a.den * 10 ^ (n + 1)⟩

/-- Exponent part accepted by Python `float` (`e`/`E`, optional sign); the
whole remainder must be consumed, otherwise the parse fails. -/
def parseExpPart : List Char → Option Int
  | [] => some 0
  | c :: r =>
    if lowChar c == 'e' then
      match r with
      | '+' :: d => if !d.isEmpty && d.all Char.isDigit then some (digitsVal d) else none
      | '-' :: d => if !d.isEmpty && d.all Char.isDigit then some (-(digitsVal d : Int)) else none
      | d => if !d.isEmpty && d.all Char.isDigit then some (digitsVal d) else none
    else none

/-- Value of `ip.fp` as a fraction. -/
def mantissaVal (ip fp : List Char) : PyFloat :=
  ⟨(digitsVal ip : Int) * (10 ^ fp.length : Nat) + (digitsVal fp : Int),
   10 ^ fp.length⟩

def parseUnsignedFloat (l : List Char) : Option PyFloat :=
  match l.dropWhile Char.isDigit with
  | '.' :: r2 =>
    let ip := l.takeWhile Char.isDigit
    let fp := r2.takeWhile Char.isDigit
    if ip.isEmpty && fp.isEmpty then none
    else (parseExpPart (r2.dropWhile Char.isDigit)).map
      (fun e => pfTimesPow10 (mantissaVal ip fp) e)
  | r2 =>
    let ip := l.takeWhile Char.isDigit
    if ip.isEmpty then none
    else (parseExpPart r2).map (fun e => pfTimesPow10 ⟨(digitsVal ip : Int), 1⟩ e)

/-- Model of Python `float(s)` on the decimal forms used by srcset
descriptors: optional surrounding whitespace, optional sign, digits with an
optional fraction and exponent (`inf`/`nan` spellings are not modelled). -/
def parsePyFloat (l : List Char) : Option PyFloat :=
  match pyStripL l with
  | '+' :: r => parseUnsignedFloat r
  | '-' :: r => (parseUnsignedFloat r).map pfNeg
  | r => parseUnsignedFloat r

/-- Enumerated srcset candidates `(score, index, url)`: parts split on `,`,
stripped, empty parts skipped (keeping Python's enumerate index), the first
whitespace-separated piece is the URL, a second piece ending in `w`/`x`
parsed as the score (0 on parse failure or no descriptor). -/
def srcsetCandsAux (i : Nat) : List (List Char) → List (PyFloat × Nat × List Char)
  | [] => []
  | part :: r =>
    match pySplitWs (pyStripL part) with
    | [] => srcsetCandsAux (i + 1) r
    | url :: pieces2 =>
      let score : PyFloat :=
        match pieces2 with
        | [] => pfZero
        | desc :: _ =>
          if endsWithL ['w'] desc || endsWithL ['x'] desc then
            match parsePyFloat desc.dropLast with
            | some q => q
            | none => pfZero
          else pfZero
      (score, i, url) :: srcsetCandsAux (i + 1) r

/-- Embedding of `_best_src_from_srcset`: Python sorts the candidates
ascending by `(score, index)` and takes the last — the greatest score, ties
going to the LATEST candidate; the fold computes that maximum directly
(a later candidate replaces the best when its score is at least as high). -/
def bestSrcFold (best : PyFloat × Nat × List Char) :
    List (PyFloat × Nat × List Char) → List Char
  | [] => best.2.2
  | c :: r => if pfLe best.1 c.1 then bestSrcFold c r else bestSrcFold best r

def best_src_from_srcset (srcset : List Char) : Option (List Char) :=
  match srcsetCandsAux 0 (splitCL ',' srcset) with
  | [] => none
  | c :: r => some (bestSrcFold c r)

/-! ## Image source normalization (`_normalize_img_tag`, lines 427-464) -/

/-- The chain of alternate data attributes, largest to smallest. -/
def dataAttrChain (a : List (String × String)) : Option String :=
  orOpt (getTruthy a "data-original") (orOpt (getTruthy a "data-largest")
    (orOpt (getTruthy a "data-large") (orOpt (getTruthy a "data-medium")
      (orOpt (getTruthy a "data-small") (getTruthy a "data-smallest")))))

/-- Source resolution order of `_normalize_img_tag`: lazy-load `data-src`,
then `src`, then the alternate data attributes, then (`srcset` or
`data-srcset`) through the source-set resolver. -/
def resolveImgSrc (a : List (String × String)) : Option String :=
  match orOpt (getTruthy a "data-src") (getTruthy a "src") with
  | some s => some s
  | none =>
    match dataAttrChain a with
    | some s => some s
    | none =>
      match orOpt (getTruthy a "srcset") (getTruthy a "data-srcset") with
      | some ss => (best_src_from_srcset ss.data).map (fun l => (⟨l⟩ : String))
      | none => none

/-- Dict assignment `img["src"] = v`: replace the binding or append it. -/
def setAttr : List (String × String) → String → String → List (String × String)
  | [], k, v => [(k, v)]
  | (k0, v0) :: r, k, v =>
    if k0 == k then (k, v) :: r else (k0, v0) :: setAttr r k v

def delAttrs (a : List (String × String)) (keys : List String) :
    List (String × String) :=
  a.filter (fun p => !(keys.contains p.1))

def lazyAttrKeys : List String :=
  ["data-src", "data-srcset", "data-original", "data-largest", "data-large",
   "data-medium", "data-small", "data-smallest", "srcset"]

/-- Embedding of `_normalize_img_tag` on the image's attributes: `none`
means the image is decomposed; otherwise the updated attributes (absolute
`src` set, lazy/responsive attributes deleted) and the absolute source. -/
def normalize_img_tag (a : List (String × String)) (base : String) :
    Option (List (String × String) × String) :=
  match resolveImgSrc a with
  | none => none
  | some src =>
    let abs := urljoin base src
    some (delAttrs (setAttr a "src" abs) lazyAttrKeys, abs)

mutual
/-- Tree pass of `_normalize_images`: every `img` element in the container
(in `find_all` pre-order) is normalized in place; unresolvable images are
decomposed. -/
def normImagesN (base : String) : Node → List Node
  | .txt s => [.txt s]
  | .elem i tg a cs =>
    if tg == "img" then
      match normalize_img_tag a base with
      | none => []
      | some (a2, _) => [Node.elem i tg a2 (normImagesL base cs)]
    else [Node.elem i tg a (normImagesL base cs)]
def normImagesL (base : String) : List Node → List Node
  | [] => []
  | c :: r => normImagesN base c ++ normImagesL base r
end

/-- `_normalize_images(container, base)`: normalizes the images among the
container's descendants (the container itself is not an image). -/
def normalize_images (base : String) : Node → Node
  | .txt s => .txt s
  | .elem i tg a cs => .elem i tg a (normImagesL base cs)

/-! ## Figure flattening (`_normalize_figures`, lines 473-496) -/

/-- Replacement of one figure element (given its children): no image or an
unresolvable image discards the figure entirely; otherwise the figure is
replaced by the bare normalized image, followed — when a `figcaption` with
non-empty text exists — by a new `<p><em>caption</em></p>`. -/
def flattenFigure (base : String) (cs : List Node) : List Node :=
  match findTagL "img" cs with
  | none => []
  | some (Node.txt _) => []
  | some (Node.elem ii itg ia ics) =>
    match normalize_img_tag ia base with
    | none => []
    | some (ia2, _) =>
      let caption : Option (List Char) :=
        match findTagL "figcaption" cs with
        | none => none
        | some fc =>
          let s := getTextS fc
          if s.isEmpty then none else some s
      match caption with
      | none => [Node.elem ii itg ia2 ics]
      | some c =>
        [Node.elem ii itg ia2 ics,
         Node.elem 0 "p" [] [Node.elem 0 "em" [] [Node.txt ⟨c⟩]]]

mutual
/-- Tree pass of `_normalize_figures`: each figure is replaced, at its own
position among its siblings, by its flattening. -/
def normFigsN (base : String) : Node → List Node
  | .txt s => [.txt s]
  | .elem i tg a cs =>
    if tg == "figure" then flattenFigure base cs
    else [Node.elem i tg a (normFigsL base cs)]
def normFigsL (base : String) : List Node → List Node
  | [] => []
  | c :: r => normFigsN base c ++ normFigsL base r
end

def normalize_figures (base : String) : Node → Node
  | .txt s => .txt s
  | .elem i tg a cs => .elem i tg a (normFigsL base cs)

/-! ## Image collection (`_collect_images`, lines 529-548) -/

structure ImageRec where
  url : String
  alt : Option String
  caption : Option String
deriving DecidableEq

/-- `img.find_next_sibling()`: the next sibling that is an element. -/
def nextSiblingTag : List Node → Option Node
  | [] => none
  | Node.elem i tg a cs :: _ => some (Node.elem i tg a cs)
  | Node.txt _ :: r => nextSiblingTag r

/-- `alt = alt.strip() or None` applied to a present attribute. -/
def stripAlt : Option String → Option String
  | none => none
  | some a => if (pyStripL a.data).isEmpty then none else some ⟨pyStripL a.data⟩

/-- Caption recovery: the immediately following sibling element must be a
paragraph whose entire text equals the text of an `em` inside it. -/
def captionOf (rest : List Node) : Option String :=
  match nextSiblingTag rest with
  | some (Node.elem pi ptg pa pcs) =>
    if ptg == "p" then
      match findTagL "em" pcs with
      | some em =>
        let emText := getTextS em
        let pText := getTextS (Node.elem pi ptg pa pcs)
        if !emText.isEmpty && emText == pText then some ⟨emText⟩ else none
      | none => none
    else none
  | _ => none

/-- One image's contribution to the list: skipped when `src` is missing or
empty, else `(src, stripped alt, caption from the next sibling)`. -/
def entryFromImg (a : List (String × String)) (rest : List Node) : List ImageRec :=
  match getAttr a "src" with
  | none => []
  | some src =>
    if src = "" then []
    else [{ url := src, alt := stripAlt (getAttr a "alt"), caption := captionOf rest }]

mutual
/-- `_collect_images` over the container's descendants in pre-order. -/
def collectN : Node → List ImageRec
  | .txt _ => []
  | .elem _ _ _ cs => collectL cs
def collectL : List Node → List ImageRec
  | [] => []
  | c :: r =>
    (match c with
     | Node.elem _ tg a _ => if tg == "img" then entryFromImg a r else []
     | Node.txt _ => []) ++ collectN c ++ collectL r
end

def collect_images (n : Node) : List ImageRec := collectN n

/-! ## Container selection (`_select_container`, lines 231-252) -/

def MIN_TEXT_LEN : Nat := 200

def contentKeywords : List String := ["article", "content", "pub", "body"]

/-- Case-insensitive substring search of a keyword alternation
(`re.search` over an alternation of literals). -/
def keywordAny (kws : List String) (l : List Char) : Bool :=
  kws.any (fun kw => containsL kw.data (lowL l))

/-- The `id`/`class` attribute text: `" ".join(filter(None, [id, " ".join(class)]))`
(BeautifulSoup stores `class` whitespace-split, so re-joining normalizes its
whitespace). -/
def attrsIdClass (a : List (String × String)) : List Char :=
  interL [' ']
    (([(getAttrD a "id").data, collapseWsL (getAttrD a "class").data]).filter
      (fun l => !l.isEmpty))

def attrsIdClassOf : Node → List Char
  | .elem _ _ a _ => attrsIdClass a
  | .txt _ => []

/-- The loop of `_select_container` over all divs: keep the keyword-matching
div with the greatest visible-text length (strictly greater replaces, so
ties keep the earliest). -/
def contentDivFold : List Node → Option Node → Nat → Option Node × Nat
  | [], best, bestLen => (best, bestLen)
  | d :: r, best, bestLen =>
    if keywordAny contentKeywords (attrsIdClassOf d) then
      if bestLen < textLen d then contentDivFold r (some d) (textLen d)
      else contentDivFold r best bestLen
    else contentDivFold r best bestLen

/-- Embedding of `_select_container`: first `article`, else first `main`,
else the longest keyword div when its text reaches `MIN_TEXT_LEN` (a found
BeautifulSoup tag is always truthy — `Tag.__bool__` returns `True`). -/
def select_container (soup : Node) : Option Node :=
  match findTagL "article" (childrenOf soup) with
  | some a => some a
  | none =>
    match findTagL "main" (childrenOf soup) with
    | some m => some m
    | none =>
      match contentDivFold (findAllL "div" (childrenOf soup)) none 0 with
      | (some d, bestLen) => if MIN_TEXT_LEN ≤ bestLen then some d else none
      | (none, _) => none

/-! ## Metadata stripping (`_strip_metadata_blocks`, lines 166-212) -/

def isCandidateTag (tg : String) : Bool :=
  tg == "section" || tg == "div" || tg == "p" || tg == "ul" || tg == "ol" ||
  tg == "li" || tg == "footer" || tg == "aside" || tg == "h2" || tg == "h3" ||
  tg == "h4" || tg == "h5" || tg == "h6"

def metadataKeywords : List String :=
  ["publication", "issue", "magazine", "context", "related", "footer",
   "language", "promo", "share"]

/-- ASCII upper-casing (Python `str.upper` on the ASCII text involved). -/
def upChar (c : Char) : Char :=
  if 'a' ≤ c ∧ c ≤ 'z' then Char.ofNat (c.toNat - 32) else c

def upL (l : List Char) : List Char := l.map upChar

def isWordChar (c : Char) : Bool := isAsciiAlphanum c || c == '_'

/-- Does `\\bwp\\d{2}\\b` (case-insensitive) match at the start of this
suffix, `prev` being the character before it? -/
def issueAt (prev : Option Char) : List Char → Bool
  | c1 :: c2 :: c3 :: c4 :: rest =>
    (match prev with
     | none => true
     | some p => !isWordChar p) &&
    lowChar c1 == 'w' && lowChar c2 == 'p' && c3.isDigit && c4.isDigit &&
    (match rest with
     | [] => true
     | c5 :: _ => !isWordChar c5)
  | _ => false

def issueScan (prev : Option Char) : List Char → Bool
  | [] => false
  | c :: r => issueAt prev (c :: r) || issueScan (some c) r

/-- `ISSUE_RE.search`: a word-bounded `wp` + two digits somewhere in the
text, case-insensitively. -/
def issueMatch (l : List Char) : Bool := issueScan none l

/-- The removal condition of `_strip_metadata_blocks` for one candidate
block (its text must be non-empty; each rule additionally requires the
normalized text to be at most 250 characters): metadata-keyword id/class,
publication names in the upper-cased text, an issue code together with an
issue/page marker, or the duplicate-language byline containing the title. -/
def metadataRule (title : Option String) (n : Node) : Bool :=
  let text := getTextS n
  if text.isEmpty then false
  else
    let normalized := collapseWsL text
    let lowered := lowL normalized
    let isShort := decide (normalized.length ≤ 250)
    let classId := attrsIdClassOf n
    if !classId.isEmpty && keywordAny metadataKeywords classId && isShort then true
    else if (containsL ("THE WATCHTOWER").data (upL normalized) ||
        containsL ("AWAKE!").data (upL normalized)) && isShort then true
    else if issueMatch normalized &&
        (containsL ("No.").data normalized || containsL ("pp.").data normalized ||
         containsL ("pp ").data normalized) && isShort then true
    else
      match title with
      | none => false
      | some t =>
        !(t = "") && containsL ("english").data lowered &&
          containsL (lowL t.data) lowered && isShort

/-- `_contains_node(parent, node)`: with `nid` modelling object identity,
the recorded title node is contained in a subtree iff its id occurs there
(`False` when no title node was recorded). -/
def containsNodeRef (tid : Option Nat) (n : Node) : Bool :=
  match tid with
  | none => false
  | some k => occursIdN k n

mutual
/-- One candidate of the `find_all` list: removed (with its whole subtree)
when it is a candidate tag, does not contain the recorded title node, and
satisfies a metadata rule; otherwise kept with its descendants processed. -/
def stripMetaN (title : Option String) (tid : Option Nat) : Node → List Node
  | .txt s => [.txt s]
  | .elem i tg a cs =>
    if isCandidateTag tg && !containsNodeRef tid (Node.elem i tg a cs) &&
        metadataRule title (Node.elem i tg a cs) then []
    else [Node.elem i tg a (stripMetaL title tid cs)]
def stripMetaL (title : Option String) (tid : Option Nat) : List Node → List Node
  | [] => []
  | c :: r => stripMetaN title tid c ++ stripMetaL title tid r
end

/-- `_strip_metadata_blocks(container, title, title_node)`: the candidates
are the container's descendants (`find_all` never yields the container
itself). -/
def strip_metadata_blocks (title : Option String) (tid : Option Nat) :
    Node → Node
  | .txt s => .txt s
  | .elem i tg a cs => .elem i tg a (stripMetaL title tid cs)

/-! ## Markdown rendering (`_html_to_markdown`, lines 551-556)

The conversion itself is the `markdownify` library call (ATX headings, `-`
bullets), modelled here for the node kinds the normalized container holds:
paragraphs are blocks surrounded by blank lines, emphasis wraps its text in
`*`, images render inline as `![alt](src)`, text nodes have whitespace runs
squashed to single spaces, all other elements render as their children. -/

def squashWsAux (inWs : Bool) : List Char → List Char
  | [] => []
  | c :: r =>
    if isPyWs c then
      if inWs then squashWsAux true r else ' ' :: squashWsAux true r
    else c :: squashWsAux false r

def squashWs (l : List Char) : List Char := squashWsAux false l

mutual
def renderN : Node → List Char
  | .txt s => squashWs s.data
  | .elem _ tg a cs =>
    let inner := renderL cs
    if tg == "p" then
      (if inner.isEmpty then [] else '\n' :: '\n' :: inner ++ ['\n', '\n'])
    else if tg == "em" then
      (if inner.isEmpty then [] else '*' :: inner ++ ['*'])
    else if tg == "img" then
      ("![").data ++ (getAttrD a "alt").data ++ ("](").data ++
        (getAttrD a "src").data ++ [')']
    else inner
def renderL : List Node → List Char
  | [] => []
  | c :: r => renderN c ++ renderL r
end

/-- `_html_to_markdown`: render, collapse 3+ newline runs, strip. -/
def html_to_markdown (n : Node) : String :=
  ⟨pyStripL (collapseNlL (renderN n))⟩

/-! ## Final image selection (`extract_from_html`, lines 579-586) -/

/-- The tail of `extract_from_html`: when the collected list is empty and a
fallback image exists, a falsy fallback alt (`None` or `""`) is replaced by
the detected title and the fallback becomes the single image; otherwise the
collected list is the output and the fallback is ignored. -/
def finalize_images (collected : List ImageRec) (fallback : Option ImageRec)
    (title : Option String) : List ImageRec :=
  match collected, fallback with
  | [], some fb =>
    [if fb.alt.getD "" = "" then { fb with alt := title } else fb]
  | c, _ => c

/-! ## C3 lemmas: the div-scan fold of `_select_container` -/

/-- The keyword-matching divs of the document, in `find_all` order. -/
def keywordDivs (soup : Node) : List Node :=
  (findAllL "div" (childrenOf soup)).filter
    (fun d => keywordAny contentKeywords (attrsIdClassOf d))

/-- Absoluteness of every `img` source in a tree: the property the collected
URLs inherit. -/
def imgSrcOkAttrs (a : List (String × String)) : Bool :=
  match getAttr a "src" with
  | none => true
  | some s => if s = "" then true else isAbsoluteUrl s

mutual
def imgsOkN : Node → Bool
  | .txt _ => true
  | .elem _ tg a cs => (if tg == "img" then imgSrcOkAttrs a else true) && imgsOkL cs
def imgsOkL : List Node → Bool
  | [] => true
  | c :: r => imgsOkN c && imgsOkL r
end

/-! ## Fallback image resolution (`_extract_fallback_image`, lines 302-404)

The four probes tried in order before `extract_from_html` falls back to
them: page meta tags, JSON-LD structured data, inline `Image:` links, and
raw-HTML regex scans for the two CDN URL patterns.  As with `urlparse`
(C1), the standard-library `json.loads` is modelled by its output: the
resolver receives the parsed payloads of the `application/ld+json` script
blocks (undecodable blocks are skipped by the `except JSONDecodeError`
arm and so do not appear in the list). -/

def metaAttrMatch (ak av : String) (a : List (String × String)) : Bool :=
  match getAttr a ak with
  | some v => v == av
  | none => false

mutual
/-- `soup.find("meta", attrs={ak: av})`: first pre-order `meta` element
whose attribute `ak` equals `av` exactly. -/
def findMetaN (ak av : String) : Node → Option Node
  | .txt _ => none
  | .elem i tg a cs =>
    if tg == "meta" && metaAttrMatch ak av a then some (Node.elem i tg a cs)
    else findMetaL ak av cs
def findMetaL (ak av : String) : List Node → Option Node
  | [] => none
  | c :: r =>
    match findMetaN ak av c with
    | some x => some x
    | none => findMetaL ak av r
end

/-- The meta keys of `_extract_meta_image`, in checking order. -/
def metaImageKeys : List (String × String) :=
  [("property", "og:image"), ("property", "og:image:secure_url"),
   ("name", "twitter:image"), ("name", "twitter:image:src"),
   ("itemprop", "image")]

/-- The key loop of `_extract_meta_image`: a found tag is always truthy
(`Tag.__bool__` is `True`), but a missing or empty `content` lets the loop
continue with the next key; a hit returns `content.strip()`. -/
def metaLoop (soup : Node) : List (String × String) → Option String
  | [] => none
  | (ak, av) :: rest =>
    match findMetaL ak av (childrenOf soup) with
    | some (Node.elem _ _ a _) =>
      (match getAttr a "content" with
       | some c => if c = "" then metaLoop soup rest else some ⟨pyStripL c.data⟩
       | none => metaLoop soup rest)
    | _ => metaLoop soup rest

def extract_meta_image (soup : Node) : Option String := metaLoop soup metaImageKeys

/-- Parsed JSON values, the output type of the modelled `json.loads`. -/
inductive Json where
  | str (s : String)
  | num (v : Int)
  | jsonBool (b : Bool)
  | null
  | arr (items : List Json)
  | obj (fields : List (String × Json))

/-- Dict key lookup (`key in payload` / `payload[key]`): first binding. -/
def jGet : List (String × Json) → String → Option Json
  | [], _ => none
  | (k, v) :: r, key => if k == key then some v else jGet r key

/-- The per-value check of `_extract_jsonld_image_value` for the value found
under `image`/`thumbnailUrl`: a string is returned as is; in a list, the
first string item or the first item that is an object with a string `url`
wins; an object yields its string `url`. -/
def jsonItemsScan : List Json → Option String
  | [] => none
  | Json.str s :: _ => some s
  | Json.obj fields :: rest =>
    (match jGet fields "url" with
     | some (Json.str u) => some u
     | _ => jsonItemsScan rest)
  | _ :: rest => jsonItemsScan rest

def jsonImageFromValue : Json → Option String
  | .str s => some s
  | .arr items => jsonItemsScan items
  | .obj fields =>
    (match jGet fields "url" with
     | some (Json.str u) => some u
     | _ => none)
  | _ => none

/-- The `("image", "thumbnailUrl")` key loop: a present key whose value
yields nothing lets the loop go on to the next key. -/
def jsonKeyProbe (fields : List (String × Json)) : Option String :=
  match (match jGet fields "image" with
         | some v => jsonImageFromValue v
         | none => none) with
  | some u => some u
  | none =>
    match jGet fields "thumbnailUrl" with
    | some v => jsonImageFromValue v
    | none => none

mutual
/-- Embedding of `_extract_jsonld_image_value` (lines 331-359): the key
probe on an object, then the depth-first search over its values; lists are
searched item by item.  The recursive results pass through Python
truthiness (`if url:`), so an empty string does not stop the search. -/
def extract_jsonld_image_value : Json → Option String
  | .obj fields =>
    (match jsonKeyProbe fields with
     | some u => some u
     | none => jsonValuesSearch fields)
  | .arr items => jsonItemsSearch items
  | _ => none
def jsonValuesSearch : List (String × Json) → Option String
  | [] => none
  | (_, v) :: rest =>
    match extract_jsonld_image_value v with
    | some u => if u = "" then jsonValuesSearch rest else some u
    | none => jsonValuesSearch rest
def jsonItemsSearch : List Json → Option String
  | [] => none
  | v :: rest =>
    match extract_jsonld_image_value v with
    | some u => if u = "" then jsonItemsSearch rest else some u
    | none => jsonItemsSearch rest
end

/-- Embedding of `_extract_jsonld_image` over the parsed script payloads:
first truthy hit wins (`if url: return url`). -/
def extract_jsonld_image : List Json → Option String
  | [] => none
  | p :: rest =>
    match extract_jsonld_image_value p with
    | some u => if u = "" then extract_jsonld_image rest else some u
    | none => extract_jsonld_image rest

/-- `text.split("Image:", 1)[1].strip() or None` for a text that starts
with `"Image:"`: the remainder after the 6-character marker, stripped,
empty mapped to `None`. -/
def imageAltOf (text : List Char) : Option String :=
  let a := pyStripL (text.drop 6)
  if a.isEmpty then none else some ⟨a⟩

/-- The anchor loop of `_extract_image_link`: anchors with empty text, text
not starting with `"Image:"`, or a falsy `href` are skipped. -/
def imageLinkScan : List Node → Option String × Option String
  | [] => (none, none)
  | nd :: rest =>
    match nd with
    | Node.elem _ _ a _ =>
      if (getTextS nd).isEmpty then imageLinkScan rest
      else if startsWithL ("Image:").data (getTextS nd) then
        match getAttr a "href" with
        | some h => if h = "" then imageLinkScan rest else (some h, imageAltOf (getTextS nd))
        | none => imageLinkScan rest
      else imageLinkScan rest
    | Node.txt _ => imageLinkScan rest

def extract_image_link (soup : Node) : Option String × Option String :=
  imageLinkScan (findAllL "a" (childrenOf soup))

/-! The raw-HTML regex scans.  `CMS_IMAGE_RE`/`AKAMAI_IMAGE_RE` are
`https?://<host-path>[^\s"'<>]+` with `re.IGNORECASE`; `findall` yields the
non-overlapping matches left to right, each maximal in its greedy body. -/

/-- A character allowed by the `[^\s"'<>]+` body. -/
def urlBodyChar (c : Char) : Bool :=
  !(isPyWs c || c == '"' || c == '\'' || c == '<' || c == '>')

/-- Case-insensitive literal match: the consumed prefix (in its original
case) and the remainder. -/
def matchCI : List Char → List Char → Option (List Char × List Char)
  | [], l => some ([], l)
  | _ :: _, [] => none
  | p :: ps, c :: cs =>
    if lowChar c == lowChar p then
      match matchCI ps cs with
      | some (m, rest) => some (c :: m, rest)
      | none => none
    else none

/-- One match attempt of the CDN URL pattern at the current position:
`http`, an optional `s` (both case-insensitive), the literal `:`, the
case-insensitive host path (given without its leading colon), then a
non-empty greedy body.  The colon is matched exactly: no character other
than `:` lower-cases to `:` (`lowChar` only moves `A`-`Z`), so this equals
the case-insensitive match of the regex. -/
def matchUrlAt (hostTail l : List Char) : Option (List Char × List Char) :=
  match matchCI ("http").data l with
  | none => none
  | some (m1, r1) =>
    let ms : List Char × List Char :=
      match r1 with
      | c :: cs => if lowChar c == 's' then (m1 ++ [c], cs) else (m1, r1)
      | [] => (m1, r1)
    match ms.2 with
    | d :: r3 =>
      if d = ':' then
        match matchCI hostTail r3 with
        | some (m3, r4) =>
          let body := r4.takeWhile urlBodyChar
          if body.isEmpty then none
          else some (ms.1 ++ ':' :: (m3 ++ body), r4.drop body.length)
        | none => none
      else none
    | [] => none

/-- `findall` scan: try a match at every position, skip past a found match
(non-overlapping); the fuel is the input length, enough because every step
consumes at least one character. -/
def regexFindAllAux (hostTail : List Char) : Nat → List Char → List String
  | 0, _ => []
  | _ + 1, [] => []
  | fuel + 1, c :: r =>
    match matchUrlAt hostTail (c :: r) with
    | some (m, rest) => (⟨m⟩ : String) :: regexFindAllAux hostTail fuel rest
    | none => regexFindAllAux hostTail fuel r

def regexFindAll (hostTail l : List Char) : List String :=
  regexFindAllAux hostTail l.length l

/-- The host paths of `CMS_IMAGE_RE` and `AKAMAI_IMAGE_RE`, after the
`https?:` part. -/
def cmsHostTail : List Char := ("//cms-imgp.jw-cdn.org/img/p/").data

def akamaiHostTail : List Char := ("//assetsnffrgf-a.akamaihd.net/assets/").data

/-- The CDN-scan tail of `_extract_fallback_image` for one pattern: a
non-empty match list has its best pick returned when truthy (`if best:`). -/
def cdnScanPick (hostTail html : List Char) (next : Option ImageRec) :
    Option ImageRec :=
  match pick_best_image_url (regexFindAll hostTail html) with
  | some best => if best = "" then next else some ⟨best, none, none⟩
  | none => next

/-- Embedding of `_extract_fallback_image(html, soup, base_url)`: the four
probes in order, first success winning; meta, JSON-LD and link URLs are
resolved against the base URL, the CDN regex matches are returned as they
stand in the raw HTML. -/
def extract_fallback_image (html : List Char) (soup : Node)
    (payloads : List Json) (base_url : String) : Option ImageRec :=
  match extract_meta_image soup with
  | some m => some ⟨urljoin base_url m, none, none⟩
  | none =>
    match extract_jsonld_image payloads with
    | some j => some ⟨urljoin base_url j, none, none⟩
    | none =>
      match extract_image_link soup with
      | (some lu, lalt) => some ⟨urljoin base_url lu, lalt, none⟩
      | (none, _) =>
        cdnScanPick cmsHostTail html (cdnScanPick akamaiHostTail html none)

theorem startsWithL_iff (p l : List Char) :
    startsWithL p l = true ↔ ∃ t, l = p ++ t := by
  induction p generalizing l with
  | nil => simp [startsWithL]
  | cons a as ih =>
    cases l with
    | nil => simp [startsWithL]
    | cons b bs =>
      simp only [startsWithL, Bool.and_eq_true, beq_iff_eq, ih]
      constructor
      · rintro ⟨h1, t, h2⟩
        exact ⟨t, by simp [h1, h2]⟩
      · rintro ⟨t, h⟩
        simp only [List.cons_append, List.cons.injEq] at h
        exact ⟨h.1.symm, t, h.2⟩

theorem endsWithL_iff (sfx l : List Char) :
    endsWithL sfx l = true ↔ ∃ p, l = p ++ sfx := by
  rw [endsWithL, startsWithL_iff]
  constructor
  · rintro ⟨t, h⟩
    refine ⟨t.reverse, ?_⟩
    have := congrArg List.reverse h
    simpa using this
  · rintro ⟨p, h⟩
    exact ⟨p.reverse, by simp [h]⟩

theorem strEndsWith_iff (s sfx : String) :
    strEndsWith s sfx = true ↔ ∃ p : String, s = p ++ sfx := by
  rw [strEndsWith, endsWithL_iff]
  constructor
  · rintro ⟨p, h⟩
    refine ⟨⟨p⟩, ?_⟩
    apply String.ext
    simpa [String.data_append] using h
  · rintro ⟨p, h⟩
    exact ⟨p.data, by simp [h, String.data_append]⟩

/-- C1: for every URL (given by its parsed scheme and hostname),
`validate_url` succeeds if and only if the scheme is exactly `https` and the
hostname is `jw.org` or a subdomain of it (exact suffix match on the
registrable domain); in every other case it fails with an error
(`ExtractionError`, the spec's `InvalidURL`), so `http` URLs, unrelated
hosts and lookalike hosts such as `evil-jw.org` are rejected. -/
theorem validate_url_iff_trusted (u : ParsedUrl) :
    (validate_url u = Except.ok () ↔ u.scheme = "https" ∧ IsTrustedJwHost u.hostname) ∧
    (validate_url u ≠ Except.ok () → ∃ msg, validate_url u = Except.error msg) := by
  constructor
  · constructor
    · intro h
      unfold validate_url at h
      by_cases hs : u.scheme = "https"
      · rw [if_neg (by simpa using hs)] at h
        by_cases ht : lowS (u.hostname.getD "") = "jw.org" ∨
            strEndsWith (lowS (u.hostname.getD "")) ".jw.org" = true
        · refine ⟨hs, ?_⟩
          rcases ht with h1 | h1
          · exact Or.inl h1
          · exact Or.inr ((strEndsWith_iff _ _).mp h1)
        · rw [if_neg ht] at h
          exact Except.noConfusion h
      · rw [if_pos (by simpa using hs)] at h
        exact Except.noConfusion h
    · rintro ⟨hs, htr⟩
      have ht : lowS (u.hostname.getD "") = "jw.org" ∨
          strEndsWith (lowS (u.hostname.getD "")) ".jw.org" = true := by
        rcases htr with h1 | ⟨p, h1⟩
        · exact Or.inl h1
        · exact Or.inr ((strEndsWith_iff _ _).mpr ⟨p, h1⟩)
      unfold validate_url
      rw [if_neg (by simpa using hs), if_pos ht]
  · intro h
    cases hv : validate_url u with
    | ok v => cases v; exact absurd hv h
    | error m => exact ⟨m, rfl⟩

/-- C1 witness: the theorem applied at concrete URLs — a subdomain over
https is accepted; the hypothesis of the error clause is discharged for the
lookalike host `evil-jw.org`, which is rejected. -/
theorem validate_url_iff_trusted_witness :
    validate_url ⟨"https", some "WWW.JW.ORG"⟩ = Except.ok () ∧
    (∃ msg, validate_url ⟨"https", some "evil-jw.org"⟩ = Except.error msg) ∧
    (∃ msg, validate_url ⟨"http", some "www.jw.org"⟩ = Except.error msg) := by
  refine ⟨?_, ?_, ?_⟩
  · exact (validate_url_iff_trusted ⟨"https", some "WWW.JW.ORG"⟩).1.mpr
      ⟨rfl, Or.inr ⟨"www", by decide⟩⟩
  · exact (validate_url_iff_trusted ⟨"https", some "evil-jw.org"⟩).2
      (fun h => Except.noConfusion h)
  · exact (validate_url_iff_trusted ⟨"http", some "www.jw.org"⟩).2
      (fun h => Except.noConfusion h)

theorem emitNl_eq_min (k : Nat) : emitNl k = emitNlMin k := by
  match k with
  | 0 => rfl
  | 1 => rfl
  | 2 => rfl
  | n + 3 =>
    unfold emitNl emitNlMin
    rw [if_pos (by omega), min_eq_right (by omega)]
    rfl

theorem collapseNlAux_eq_norm (l : List Char) :
    ∀ k, collapseNlAux k l = normNlAux k l := by
  induction l with
  | nil => intro k; simp [collapseNlAux, normNlAux, emitNl_eq_min]
  | cons c r ih =>
    intro k
    unfold collapseNlAux normNlAux
    by_cases hc : c == '\n'
    · rw [if_pos hc, if_pos hc, ih]
    · rw [if_neg hc, if_neg hc, emitNl_eq_min, ih]

theorem containsL_cons_of (pat : List Char) (c : Char) (r : List Char)
    (h : containsL pat r = true) : containsL pat (c :: r) = true := by
  unfold containsL
  rw [h, Bool.or_true]

theorem containsL_of_cons_ne (pat : List Char) (hp : pat ≠ []) (c : Char)
    (hc : pat.head hp ≠ c) (r : List Char) :
    containsL pat (c :: r) = containsL pat r := by
  match pat, hp with
  | a :: as, _ =>
    show (startsWithL (a :: as) (c :: r) || containsL (a :: as) r)
        = containsL (a :: as) r
    have ha : (a == c) = false := beq_eq_false_iff_ne.mpr (by simpa using hc)
    simp [startsWithL, ha]

theorem hasTripleNl_cons_ne (c : Char) (hc : c ≠ '\n') (r : List Char) :
    hasTripleNl (c :: r) = hasTripleNl r := by
  unfold hasTripleNl
  exact containsL_of_cons_ne _ (by simp) c (by simpa using fun h => hc h.symm) r

theorem hasTripleNl_tail (c : Char) (r : List Char)
    (h : hasTripleNl (c :: r) = false) : hasTripleNl r = false := by
  cases hx : hasTripleNl r with
  | false => rfl
  | true =>
    have h2 : hasTripleNl (c :: r) = true := containsL_cons_of _ c r hx
    rw [h] at h2
    exact Bool.noConfusion h2

theorem hasTripleNl_append_tail : ∀ (w l : List Char),
    hasTripleNl (w ++ l) = false → hasTripleNl l = false := by
  intro w
  induction w with
  | nil => intro l h; simpa using h
  | cons a w1 ih =>
    intro l h
    exact ih l (hasTripleNl_tail a _ (by simpa using h))

theorem noTriple_append_cons (x : List Char) (hx : hasTripleNl x = false)
    (c : Char) (hc : c ≠ '\n') (y : List Char) (hy : hasTripleNl y = false) :
    hasTripleNl (x ++ c :: y) = false := by
  induction x with
  | nil =>
    simpa [hasTripleNl_cons_ne c hc y] using hy
  | cons a x1 ih =>
    have hx1 : hasTripleNl x1 = false := hasTripleNl_tail a x1 hx
    have hrest : containsL ['\n', '\n', '\n'] (x1 ++ c :: y) = false := ih hx1
    show (startsWithL ['\n', '\n', '\n'] (a :: (x1 ++ c :: y)) ||
        containsL ['\n', '\n', '\n'] (x1 ++ c :: y)) = false
    rw [hrest, Bool.or_false]
    have hcn : ('\n' == c) = false := beq_eq_false_iff_ne.mpr (fun h => hc h.symm)
    by_cases ha : a = '\n'
    · subst ha
      rcases x1 with - | ⟨b, x1t⟩
      · simp [startsWithL, hcn]
      · rcases x1t with - | ⟨b2, x2⟩
        · simp [startsWithL, hcn]
        · by_cases hbn : b = '\n'
          · by_cases hb2n : b2 = '\n'
            · subst hbn; subst hb2n
              exact absurd hx (by simp [hasTripleNl, containsL, startsWithL])
            · simp [startsWithL, show ('\n' == b2) = false from
                beq_eq_false_iff_ne.mpr (fun h => hb2n h.symm)]
          · simp [startsWithL, show ('\n' == b) = false from
              beq_eq_false_iff_ne.mpr (fun h => hbn h.symm)]
    · simp [startsWithL, show ('\n' == a) = false from beq_eq_false_iff_ne.mpr
        (fun h => ha h.symm)]

theorem emitNl_noTriple (k : Nat) : hasTripleNl (emitNl k) = false := by
  match k with
  | 0 => decide
  | 1 => decide
  | 2 => decide
  | n + 3 =>
    unfold emitNl
    rw [if_pos (by omega)]
    decide

theorem collapseNlAux_noTriple (l : List Char) :
    ∀ k, hasTripleNl (collapseNlAux k l) = false := by
  induction l with
  | nil => intro k; simpa [collapseNlAux] using emitNl_noTriple k
  | cons c r ih =>
    intro k
    unfold collapseNlAux
    by_cases hc : c == '\n'
    · rw [if_pos hc]; exact ih (k + 1)
    · rw [if_neg hc]
      exact noTriple_append_cons _ (emitNl_noTriple k) c
        (by simpa using hc) _ (ih 0)

theorem collapseNlAux_fixed (l : List Char) :
    ∀ k, k ≤ 2 → hasTripleNl (List.replicate k '\n' ++ l) = false →
      collapseNlAux k l = List.replicate k '\n' ++ l := by
  induction l with
  | nil =>
    intro k hk _
    unfold collapseNlAux emitNl
    rw [if_neg (by omega)]
    simp
  | cons c r ih =>
    intro k hk h
    unfold collapseNlAux
    by_cases hc : c == '\n'
    · rw [if_pos hc]
      have hceq : c = '\n' := by simpa using hc
      subst hceq
      have hk1 : k + 1 ≤ 2 := by
        rcases Nat.lt_or_ge k 2 with h2 | h2
        · omega
        · exfalso
          have hk2 : k = 2 := by omega
          subst hk2
          simp [hasTripleNl, containsL, startsWithL, List.replicate] at h
      have heq : List.replicate (k + 1) '\n' ++ r
          = List.replicate k '\n' ++ '\n' :: r := by
        rw [List.replicate_succ']
        simp
      rw [ih (k + 1) hk1 (by rw [heq]; exact h), heq]
    · rw [if_neg hc]
      have h1 : hasTripleNl (c :: r) = false := hasTripleNl_append_tail _ _ h
      have hr : hasTripleNl r = false := hasTripleNl_tail c r h1
      rw [ih 0 (by omega) (by simpa using hr)]
      unfold emitNl
      rw [if_neg (by omega)]
      simp

/-- C6 counterexample: the string `"a\n\n\nb"` contains a run of exactly two
consecutive blank lines — fewer than 3 — yet the collapsing step changes it
(to a single blank line), contradicting the claim that runs of fewer than 3
blank lines are left as they are. -/
theorem collapse_blank_lines_two_blank_counterexample :
    maxEmptyLineRun "a\n\n\nb" = 2 ∧
    collapse_blank_lines "a\n\n\nb" = "a\n\nb" ∧
    collapse_blank_lines "a\n\n\nb" ≠ "a\n\n\nb" := by
  refine ⟨by decide, by decide, by decide⟩

/-- C6 amended: the renderer collapses every maximal run of `n ≥ 3`
consecutive newline characters (that is, two or more consecutive blank
lines) to exactly two newlines (one blank line), and leaves shorter newline
runs unchanged: the result equals the `min n 2` normal form, the result
never contains `"\n\n\n"`, and any string without `"\n\n\n"` is left
exactly as it is. -/
theorem collapse_blank_lines_spec (s : String) :
    collapse_blank_lines s = ⟨normNl s.data⟩ ∧
    hasTripleNl (collapse_blank_lines s).data = false ∧
    (hasTripleNl s.data = false → collapse_blank_lines s = s) := by
  refine ⟨?_, ?_, ?_⟩
  · unfold collapse_blank_lines collapseNlL normNl
    rw [collapseNlAux_eq_norm]
  · unfold collapse_blank_lines collapseNlL
    exact collapseNlAux_noTriple _ 0
  · intro h
    unfold collapse_blank_lines collapseNlL
    rw [collapseNlAux_fixed s.data 0 (by omega) (by simpa using h)]
    rfl

/-- C6 amended witness: applied at `"a\nb\n\nc"` (no run of 3+ newlines),
whose hypothesis is discharged by evaluation — the string is unchanged. -/
theorem collapse_blank_lines_spec_witness :
    collapse_blank_lines "a\nb\n\nc" = "a\nb\n\nc" :=
  (collapse_blank_lines_spec "a\nb\n\nc").2.2 (by decide)

/-- C5 counterexample: two CDN URLs that tie on the highest size-suffix
score (both `_l`, score 4); the code picks the EARLIEST occurrence, not the
latest one the claim requires. -/
theorem pick_best_image_url_tie_counterexample :
    score_image_url "https://cms-imgp.jw-cdn.org/img/p/a_l.jpg" =
      score_image_url "https://cms-imgp.jw-cdn.org/img/p/b_l.jpg" ∧
    pick_best_image_url
      ["https://cms-imgp.jw-cdn.org/img/p/a_l.jpg",
       "https://cms-imgp.jw-cdn.org/img/p/b_l.jpg"] =
      some "https://cms-imgp.jw-cdn.org/img/p/a_l.jpg" ∧
    "https://cms-imgp.jw-cdn.org/img/p/a_l.jpg" ≠
      "https://cms-imgp.jw-cdn.org/img/p/b_l.jpg" := by
  refine ⟨by decide, by decide, by decide⟩

theorem pickBestAux_spec : ∀ (r : List String) (best : String),
    ∃ xs ys, best :: r = xs ++ pickBestAux best (score_image_url best) r :: ys ∧
      (∀ v ∈ xs, score_image_url v <
        score_image_url (pickBestAux best (score_image_url best) r)) ∧
      (∀ v ∈ ys, score_image_url v ≤
        score_image_url (pickBestAux best (score_image_url best) r)) := by
  intro r
  induction r with
  | nil =>
    intro best
    exact ⟨[], [], rfl, by simp, by simp⟩
  | cons w r1 ih =>
    intro best
    by_cases hw : score_image_url best < score_image_url w
    · obtain ⟨xs, ys, hdec, hpre, hpost⟩ := ih w
      have hrw : pickBestAux best (score_image_url best) (w :: r1)
          = pickBestAux w (score_image_url w) r1 := by
        simp only [pickBestAux]
        rw [if_pos hw]
      have hwle : score_image_url w
          ≤ score_image_url (pickBestAux w (score_image_url w) r1) := by
        rcases xs with - | ⟨x0, xs1⟩
        · have hhd : w = pickBestAux w (score_image_url w) r1 := by
            simpa using congrArg (fun l => l.headI) hdec
          rw [← hhd]
        · have hx0 : x0 = w :=
            (by simpa using congrArg (fun l => l.headI) hdec :
              w = x0).symm
          have hlt := hpre x0 (by simp)
          rw [hx0] at hlt
          exact le_of_lt hlt
      refine ⟨best :: xs, ys, ?_, ?_, ?_⟩
      · rw [hrw, List.cons_append, ← hdec]
      · intro v hv
        rw [hrw]
        rcases List.mem_cons.mp hv with h1 | h1
        · subst h1
          exact lt_of_lt_of_le hw hwle
        · exact hpre v h1
      · intro v hv
        rw [hrw]
        exact hpost v hv
    · obtain ⟨xs, ys, hdec, hpre, hpost⟩ := ih best
      have hrw : pickBestAux best (score_image_url best) (w :: r1)
          = pickBestAux best (score_image_url best) r1 := by
        simp only [pickBestAux]
        rw [if_neg hw]
      rcases xs with - | ⟨x0, xs1⟩
      · have hbest : best = pickBestAux best (score_image_url best) r1 := by
          simpa using congrArg (fun l => l.headI) hdec
        have hr1 : r1 = ys := by
          have := congrArg (fun l => l.tail) hdec
          simpa using this
        refine ⟨[], w :: ys, ?_, by simp, ?_⟩
        · rw [hrw, ← hbest, ← hr1]
          simp
        · intro v hv
          rw [hrw]
          rcases List.mem_cons.mp hv with h1 | h1
          · subst h1
            rw [← hbest]
            omega
          · exact hpost v h1
      · have hx0 : x0 = best :=
          (by simpa using congrArg (fun l => l.headI) hdec :
            best = x0).symm
        have htail : r1 = xs1 ++ pickBestAux best (score_image_url best) r1 :: ys := by
          have := congrArg (fun l => l.tail) hdec
          simpa using this
        refine ⟨best :: w :: xs1, ys, ?_, ?_, ?_⟩
        · rw [hrw]
          simp only [List.cons_append]
          rw [← htail]
        · intro v hv
          rw [hrw]
          rcases List.mem_cons.mp hv with h1 | h1
          · subst h1
            have hb := hpre x0 (by simp)
            rw [hx0] at hb
            exact hb
          · rcases List.mem_cons.mp h1 with h2 | h2
            · subst h2
              have hb := hpre x0 (by simp)
              rw [hx0] at hb
              omega
            · exact hpre v (by simp [h2])
        · intro v hv
          rw [hrw]
          exact hpost v hv

/-- C5 amended: in the raw-HTML CDN fallback, when the regex scan yields
several URL matches, `_pick_best_image_url` returns a URL of maximal
size-suffix score (`_xs/_s/_m/_l/_xl` scoring 1..5, unsuffixed 0), and when
several matches tie on that maximal score the EARLIEST occurrence in the
list is chosen (every entry before the chosen one scores strictly less,
every entry after scores at most as much). -/
theorem pick_best_image_url_spec (urls : List String) (h : urls ≠ []) :
    ∃ u xs ys, pick_best_image_url urls = some u ∧ urls = xs ++ u :: ys ∧
      (∀ v ∈ xs, score_image_url v < score_image_url u) ∧
      (∀ v ∈ ys, score_image_url v ≤ score_image_url u) := by
  match urls, h with
  | u0 :: r, _ =>
    obtain ⟨xs, ys, hdec, hpre, hpost⟩ := pickBestAux_spec r u0
    exact ⟨pickBestAux u0 (score_image_url u0) r, xs, ys, rfl, hdec, hpre, hpost⟩

/-- C5 amended witness: the theorem applied to the concrete tied list — the
chosen URL is the earliest of the two maximal-score entries. -/
theorem pick_best_image_url_spec_witness :
    ∃ u xs ys,
      pick_best_image_url
        ["https://cms-imgp.jw-cdn.org/img/p/a_l.jpg",
         "https://cms-imgp.jw-cdn.org/img/p/b_l.jpg"] = some u ∧
      ["https://cms-imgp.jw-cdn.org/img/p/a_l.jpg",
       "https://cms-imgp.jw-cdn.org/img/p/b_l.jpg"] = xs ++ u :: ys ∧
      (∀ v ∈ xs, score_image_url v < score_image_url u) ∧
      (∀ v ∈ ys, score_image_url v ≤ score_image_url u) :=
  pick_best_image_url_spec _ (by decide)

theorem hashTitle_ne (t : List Char) : hashTitle t ≠ t := by
  intro h
  have := congrArg List.length h
  simp only [hashTitle, List.length_cons] at this
  omega

theorem emtGo_of_none (t : List Char) : ∀ ls : List (List Char),
    firstNonBlankStripped ls = none → emtGo t ls = none := by
  intro ls
  induction ls with
  | nil => intro _; rfl
  | cons l ls1 ih =>
    intro h
    unfold firstNonBlankStripped at h
    unfold emtGo
    by_cases hb : (pyStripL l).isEmpty
    · rw [if_pos hb] at h ⊢
      rw [ih h]
    · rw [if_neg hb] at h
      exact Option.noConfusion h

theorem emtGo_of_other (t : List Char) : ∀ (ls : List (List Char)) (s : List Char),
    firstNonBlankStripped ls = some s → s ≠ t → emtGo t ls = none := by
  intro ls
  induction ls with
  | nil => intro s h _; exact Option.noConfusion h
  | cons l ls1 ih =>
    intro s h hne
    unfold firstNonBlankStripped at h
    unfold emtGo
    by_cases hb : (pyStripL l).isEmpty
    · rw [if_pos hb] at h ⊢
      rw [ih s h hne]
    · rw [if_neg hb] at h
      rw [if_neg hb]
      have hs : pyStripL l = s := by
        injection h
      by_cases h1 : pyStripL l == hashTitle t
      · rw [if_pos h1]
      · rw [if_neg h1]
        rw [if_neg (by simp [hs]; exact hne)]

theorem emtGo_of_title (t : List Char) : ∀ ls : List (List Char),
    firstNonBlankStripped ls = some t →
    ∃ xs l rest, ls = xs ++ l :: rest ∧
      (∀ x ∈ xs, (pyStripL x).isEmpty = true) ∧ pyStripL l = t ∧
      emtGo t ls = some (xs ++ hashTitle t :: rest) := by
  intro ls
  induction ls with
  | nil => intro h; exact Option.noConfusion h
  | cons l ls1 ih =>
    intro h
    unfold firstNonBlankStripped at h
    by_cases hb : (pyStripL l).isEmpty
    · rw [if_pos hb] at h
      obtain ⟨xs, l0, rest, hdec, hblank, hstrip, hgo⟩ := ih h
      refine ⟨l :: xs, l0, rest, by rw [hdec]; rfl, ?_, hstrip, ?_⟩
      · intro x hx
        rcases List.mem_cons.mp hx with h1 | h1
        · subst h1; exact hb
        · exact hblank x h1
      · unfold emtGo
        rw [if_pos hb, hgo]
        rfl
    · rw [if_neg hb] at h
      have hs : pyStripL l = t := by injection h
      refine ⟨[], l, ls1, rfl, by simp, hs, ?_⟩
      unfold emtGo
      rw [if_neg hb,
        if_neg (by simp [hs]; exact fun he => (hashTitle_ne t) he.symm),
        if_pos (by simp [hs])]
      rfl

/-- C7: for every rendered markdown string and every non-empty detected
title — splitting lines at `'\n'` — (1) if the first non-blank line is
already the heading `"# title"` the markdown is returned unchanged; (2) if
the first non-blank line strips to anything other than the title the
markdown is returned unchanged; (3) if it strips to exactly the title, that
line (and only that line) is replaced by the ATX level-1 heading
`"# " ++ title`; (4) with no non-blank line at all the markdown is
unchanged. -/
theorem ensure_markdown_title_spec (md t : String) (ht : t ≠ "") :
    (firstNonBlankStripped (splitNlL md.data) = some (hashTitle t.data) →
      ensure_markdown_title md (some t) = md) ∧
    (∀ s, firstNonBlankStripped (splitNlL md.data) = some s → s ≠ t.data →
      ensure_markdown_title md (some t) = md) ∧
    (firstNonBlankStripped (splitNlL md.data) = some t.data →
      ∃ xs l rest, splitNlL md.data = xs ++ l :: rest ∧
        (∀ x ∈ xs, (pyStripL x).isEmpty = true) ∧ pyStripL l = t.data ∧
        ensure_markdown_title md (some t)
          = ⟨joinNlL (xs ++ hashTitle t.data :: rest)⟩) ∧
    (firstNonBlankStripped (splitNlL md.data) = none →
      ensure_markdown_title md (some t) = md) := by
  refine ⟨?_, ?_, ?_, ?_⟩
  · intro h
    simp only [ensure_markdown_title]
    rw [if_neg ht, emtGo_of_other t.data _ _ h (hashTitle_ne t.data)]
  · intro s h hne
    simp only [ensure_markdown_title]
    rw [if_neg ht, emtGo_of_other t.data _ s h hne]
  · intro h
    obtain ⟨xs, l, rest, hdec, hblank, hstrip, hgo⟩ := emtGo_of_title t.data _ h
    refine ⟨xs, l, rest, hdec, hblank, hstrip, ?_⟩
    simp only [ensure_markdown_title]
    rw [if_neg ht, hgo]
  · intro h
    simp only [ensure_markdown_title]
    rw [if_neg ht, emtGo_of_none t.data _ h]

/-- C7 witness: the theorem applied at a concrete markdown whose first
non-blank line equals the title — the line becomes `"# ..."` — and at one
whose first line is different text — unchanged. -/
theorem ensure_markdown_title_spec_witness :
    ensure_markdown_title "Intro line\nBody text." (some "My Title")
      = "Intro line\nBody text." ∧
    (∃ xs l rest,
      splitNlL ("\nMy Title\nBody text.").data = xs ++ l :: rest ∧
      (∀ x ∈ xs, (pyStripL x).isEmpty = true) ∧ pyStripL l = ("My Title").data ∧
      ensure_markdown_title "\nMy Title\nBody text." (some "My Title")
        = ⟨joinNlL (xs ++ hashTitle ("My Title").data :: rest)⟩) := by
  constructor
  · exact (ensure_markdown_title_spec "Intro line\nBody text." "My Title"
      (by decide)).2.1 ("Intro line").data (by decide) (by decide)
  · exact (ensure_markdown_title_spec "\nMy Title\nBody text." "My Title"
      (by decide)).2.2.1 (by decide)

/-! ## Idempotence of the title rewrite (lemmas about splitting/joining) -/

theorem splitNl_no_nl : ∀ l p, p ∈ splitCL '\n' l → '\n' ∉ p := by
  intro l
  induction l with
  | nil =>
    intro p hp
    simp only [splitCL, List.mem_singleton] at hp
    subst hp
    simp
  | cons c r ih =>
    intro p hp
    by_cases hc : c == '\n'
    · rw [show splitCL '\n' (c :: r) = [] :: splitCL '\n' r from by
        simp only [splitCL]; rw [if_pos hc]] at hp
      rcases List.mem_cons.mp hp with h1 | h1
      · subst h1; simp
      · exact ih p h1
    · have hcc : c ≠ '\n' := by simpa using hc
      cases hrest : splitCL '\n' r with
      | nil =>
        rw [show splitCL '\n' (c :: r) = [[c]] from by
          simp only [splitCL]; rw [if_neg hc, hrest]] at hp
        simp only [List.mem_singleton] at hp
        subst hp
        simp [Ne.symm hcc]
      | cons h0 t0 =>
        rw [show splitCL '\n' (c :: r) = (c :: h0) :: t0 from by
          simp only [splitCL]; rw [if_neg hc, hrest]] at hp
        rcases List.mem_cons.mp hp with h1 | h1
        · subst h1
          intro hmem
          rcases List.mem_cons.mp hmem with h2 | h2
          · exact hcc h2.symm
          · exact ih h0 (by rw [hrest]; simp) h2
        · exact ih p (by rw [hrest]; simp [h1])

theorem splitNl_of_no_nl : ∀ x : List Char, '\n' ∉ x → splitCL '\n' x = [x] := by
  intro x
  induction x with
  | nil => intro _; rfl
  | cons c r ih =>
    intro h
    have hc : (c == '\n') = false :=
      beq_eq_false_iff_ne.mpr (fun he => h (by rw [he]; exact List.mem_cons_self _ _))
    have hr := ih (fun hm => h (List.mem_cons_of_mem c hm))
    simp only [splitCL]
    rw [if_neg (by simp [hc]), hr]

theorem splitNl_append_nl (w : List Char) : ∀ x : List Char, '\n' ∉ x →
    splitCL '\n' (x ++ '\n' :: w) = x :: splitCL '\n' w := by
  intro x
  induction x with
  | nil =>
    intro _
    simp only [List.nil_append, splitCL]
    rw [if_pos (by simp)]
  | cons c r ih =>
    intro h
    have hc : (c == '\n') = false :=
      beq_eq_false_iff_ne.mpr (fun he => h (by rw [he]; exact List.mem_cons_self _ _))
    have hr := ih (fun hm => h (List.mem_cons_of_mem c hm))
    show splitCL '\n' (c :: (r ++ '\n' :: w)) = (c :: r) :: splitCL '\n' w
    simp only [splitCL]
    rw [if_neg (by simp [hc]), hr]

theorem splitNl_joinNl : ∀ ls : List (List Char), ls ≠ [] →
    (∀ p ∈ ls, '\n' ∉ p) → splitCL '\n' (joinNlL ls) = ls := by
  intro ls
  induction ls with
  | nil => intro h _; exact absurd rfl h
  | cons x ls1 ih =>
    intro _ hp
    cases ls1 with
    | nil => exact splitNl_of_no_nl x (hp x (by simp))
    | cons y ls2 =>
      have hj : joinNlL (x :: y :: ls2) = x ++ '\n' :: joinNlL (y :: ls2) := by
        simp [joinNlL, interL]
      rw [hj, splitNl_append_nl _ x (hp x (by simp)),
        ih (by simp) (fun p hm => hp p (by simp [hm]))]

theorem pyStrip_no_nl (l : List Char) (h : '\n' ∉ l) : '\n' ∉ pyStripL l := by
  intro hm
  apply h
  unfold pyStripL trimRightL trimLeftL at hm
  have h1 := List.mem_reverse.mp hm
  have h2 := (List.dropWhile_sublist _).mem h1
  have h3 := List.mem_reverse.mp h2
  exact (List.dropWhile_sublist _).mem h3

theorem trimRight_hash_ne (t : List Char) : trimRightL (hashTitle t) ≠ [] := by
  intro h
  unfold trimRightL at h
  have h2 : (hashTitle t).reverse.dropWhile (fun c => isPyWs c) = [] := by
    have := congrArg List.reverse h
    simpa using this
  rw [List.dropWhile_eq_nil_iff] at h2
  have := h2 '#' (by simp [hashTitle])
  simp [isPyWs] at this

theorem pyStrip_hash_not_empty (t : List Char) :
    (pyStripL (hashTitle t)).isEmpty = false := by
  have h1 : trimLeftL (hashTitle t) = hashTitle t := by
    unfold trimLeftL hashTitle
    rw [List.dropWhile_cons]
    rw [if_neg (by simp [isPyWs])]
  cases hE : (pyStripL (hashTitle t)).isEmpty with
  | false => rfl
  | true =>
    rw [pyStripL, h1] at hE
    exact absurd (by simpa using hE) (trimRight_hash_ne t)

theorem emtGo_some_inv (t : List Char) : ∀ ls ls2, emtGo t ls = some ls2 →
    ∃ xs l rest, ls = xs ++ l :: rest ∧
      (∀ x ∈ xs, (pyStripL x).isEmpty = true) ∧
      pyStripL l = t ∧ ls2 = xs ++ hashTitle t :: rest := by
  intro ls
  induction ls with
  | nil => intro ls2 h; exact Option.noConfusion h
  | cons l ls1 ih =>
    intro ls2 h
    unfold emtGo at h
    by_cases hb : (pyStripL l).isEmpty
    · rw [if_pos hb] at h
      cases hgo : emtGo t ls1 with
      | none => rw [hgo] at h; exact Option.noConfusion h
      | some ls3 =>
        rw [hgo] at h
        obtain ⟨xs, l0, rest, hdec, hbl, hst, hres⟩ := ih ls3 hgo
        injection h with h2
        refine ⟨l :: xs, l0, rest, by rw [hdec]; rfl, ?_, hst, ?_⟩
        · intro x hx
          rcases List.mem_cons.mp hx with h1 | h1
          · subst h1; exact hb
          · exact hbl x h1
        · rw [← h2, hres]; rfl
    · rw [if_neg hb] at h
      by_cases h1 : pyStripL l == hashTitle t
      · rw [if_pos h1] at h; exact Option.noConfusion h
      · rw [if_neg h1] at h
        by_cases h2 : pyStripL l == t
        · rw [if_pos h2] at h
          injection h with h3
          exact ⟨[], l, ls1, rfl, by simp, by simpa using h2, by rw [← h3]; rfl⟩
        · rw [if_neg h2] at h; exact Option.noConfusion h

theorem emtGo_hash_line (t : List Char) : ∀ (xs rest : List (List Char)),
    (∀ x ∈ xs, (pyStripL x).isEmpty = true) →
    emtGo t (xs ++ hashTitle t :: rest) = none ∨
    emtGo t (xs ++ hashTitle t :: rest) = some (xs ++ hashTitle t :: rest) := by
  intro xs
  induction xs with
  | nil =>
    intro rest _
    simp only [List.nil_append]
    unfold emtGo
    rw [if_neg (by simp [pyStrip_hash_not_empty])]
    by_cases hh : pyStripL (hashTitle t) == hashTitle t
    · rw [if_pos hh]; exact Or.inl rfl
    · rw [if_neg hh]
      by_cases ht2 : pyStripL (hashTitle t) == t
      · rw [if_pos ht2]; exact Or.inr rfl
      · rw [if_neg ht2]; exact Or.inl rfl
  | cons x xs1 ih =>
    intro rest hbl
    simp only [List.cons_append]
    unfold emtGo
    rw [if_pos (hbl x (by simp))]
    rcases ih rest (fun y hy => hbl y (by simp [hy])) with h | h
    · rw [h]
      exact Or.inl rfl
    · rw [h]
      exact Or.inr rfl

/-- C10: the title-heading rewrite is idempotent — applying
`_ensure_markdown_title` twice gives the same markdown as applying it once;
in particular a markdown whose first non-blank line is already `"# title"`
is returned unchanged by the second pass. -/
theorem ensure_markdown_title_idem (md : String) (title : Option String) :
    ensure_markdown_title (ensure_markdown_title md title) title
      = ensure_markdown_title md title := by
  cases title with
  | none => rfl
  | some t =>
    by_cases ht : t = ""
    · simp [ensure_markdown_title, ht]
    · cases hgo : emtGo t.data (splitNlL md.data) with
      | none =>
        have h1 : ensure_markdown_title md (some t) = md := by
          simp only [ensure_markdown_title]
          rw [if_neg ht, hgo]
        rw [h1]
        exact h1
      | some ls2 =>
        have h1 : ensure_markdown_title md (some t) = ⟨joinNlL ls2⟩ := by
          simp only [ensure_markdown_title]
          rw [if_neg ht, hgo]
        obtain ⟨xs, l, rest, hdec, hbl, hst, hres⟩ := emtGo_some_inv t.data _ _ hgo
        have hdec2 : splitCL '\n' md.data = xs ++ l :: rest := hdec
        have hnol : '\n' ∉ l := splitNl_no_nl md.data l (by rw [hdec2]; simp)
        have hnot : '\n' ∉ t.data := by
          rw [← hst]
          exact pyStrip_no_nl l hnol
        have hhash : '\n' ∉ hashTitle t.data := by
          intro hm
          simp only [hashTitle, List.mem_cons] at hm
          rcases hm with h | h | h
          · exact absurd h (by decide)
          · exact absurd h (by decide)
          · exact hnot h
        have hls2 : ∀ p ∈ ls2, '\n' ∉ p := by
          intro p hp
          rw [hres] at hp
          rcases List.mem_append.mp hp with h | h
          · exact splitNl_no_nl md.data p (by rw [hdec2]; exact List.mem_append.mpr (Or.inl h))
          · rcases List.mem_cons.mp h with h1 | h1
            · subst h1; exact hhash
            · exact splitNl_no_nl md.data p (by rw [hdec2]; simp [h1])
        have hne : ls2 ≠ [] := by
          rw [hres]
          simp
        have hsplit : splitNlL (joinNlL ls2) = ls2 := splitNl_joinNl ls2 hne hls2
        rw [h1]
        simp only [ensure_markdown_title]
        rw [if_neg ht]
        rw [hsplit, hres]
        rcases emtGo_hash_line t.data xs rest hbl with h2 | h2
        · rw [h2]
        · rw [h2]

/-- C8: the fallback image is used only when the collected image list is
empty — with a non-empty collected list the output is exactly the collected
list and the fallback resolver's result does not enter it; with an empty
collected list and no fallback the output is empty; with an empty collected
list and a fallback the output is exactly one image, whose alt is set to the
detected title when the fallback source supplied no (or an empty) alt and is
kept otherwise. -/
theorem finalize_images_spec :
    (∀ (c : List ImageRec) (fb : Option ImageRec) (t : Option String),
      c ≠ [] → finalize_images c fb t = c) ∧
    (∀ t : Option String, finalize_images [] none t = []) ∧
    (∀ (fb : ImageRec) (t : Option String),
      (finalize_images [] (some fb) t).length = 1) ∧
    (∀ (fb : ImageRec) (t : Option String), fb.alt = none ∨ fb.alt = some "" →
      finalize_images [] (some fb) t = [{ fb with alt := t }]) ∧
    (∀ (fb : ImageRec) (t : Option String) (a : String), fb.alt = some a →
      a ≠ "" → finalize_images [] (some fb) t = [fb]) := by
  refine ⟨?_, ?_, ?_, ?_, ?_⟩
  · intro c fb t h
    cases c with
    | nil => exact absurd rfl h
    | cons x r => rfl
  · intro t; rfl
  · intro fb t; rfl
  · intro fb t h
    show [if fb.alt.getD "" = "" then { fb with alt := t } else fb]
        = [{ fb with alt := t }]
    rcases h with h | h
    · rw [if_pos (by rw [h]; rfl)]
    · rw [if_pos (by rw [h]; rfl)]
  · intro fb t a h ha
    show [if fb.alt.getD "" = "" then { fb with alt := t } else fb] = [fb]
    rw [if_neg (by rw [h]; exact ha)]

/-- C8 witness: the theorem applied at concrete inputs — a collected image
suppresses the fallback, and an alt-less fallback takes the title as alt. -/
theorem finalize_images_spec_witness :
    finalize_images [⟨"https://a/x.jpg", none, none⟩]
      (some ⟨"https://b/y.jpg", none, none⟩) (some "T")
      = [⟨"https://a/x.jpg", none, none⟩] ∧
    finalize_images [] (some ⟨"https://b/y.jpg", none, none⟩) (some "T")
      = [{ ImageRec.mk "https://b/y.jpg" none none with alt := some "T" }] :=
  ⟨finalize_images_spec.1 _ _ _ (by simp),
   finalize_images_spec.2.2.2.1 ⟨"https://b/y.jpg", none, none⟩ (some "T")
     (Or.inl rfl)⟩

/-! ## C9 lemmas: identity occurrence and the metadata stripper -/

theorem occursIdL_append (k : Nat) : ∀ xs ys : List Node,
    occursIdL k (xs ++ ys) = (occursIdL k xs || occursIdL k ys) := by
  intro xs ys
  induction xs with
  | nil => simp [occursIdL]
  | cons c r ih =>
    show (occursIdN k c || occursIdL k (r ++ ys))
        = ((occursIdN k c || occursIdL k r) || occursIdL k ys)
    rw [ih, Bool.or_assoc]

theorem occursId_self (b : Node) (k : Nat) (h : nidOf b = some k) :
    occursIdN k b = true := by
  cases b with
  | txt s => exact Option.noConfusion h
  | elem i tg a cs =>
    have hik : i = k := by
      injection h
    show (i == k || occursIdL k cs) = true
    rw [hik]
    simp

mutual
theorem occursId_memN : ∀ (n b : Node), b ∈ elemsN n →
    ∀ k, occursIdN k b = true → occursIdN k n = true
  | .txt _, b, hb, k, _ => by simp [elemsN] at hb
  | .elem i tg a cs, b, hb, k, hk => by
    rcases List.mem_cons.mp hb with h1 | h1
    · rw [h1] at hk
      exact hk
    · show (i == k || occursIdL k cs) = true
      rw [occursId_memL cs b h1 k hk]
      simp
theorem occursId_memL : ∀ (l : List Node) (b : Node), b ∈ elemsL l →
    ∀ k, occursIdN k b = true → occursIdL k l = true
  | [], b, hb, k, _ => by simp [elemsL] at hb
  | c :: r, b, hb, k, hk => by
    show (occursIdN k c || occursIdL k r) = true
    rcases List.mem_append.mp hb with h1 | h1
    · rw [occursId_memN c b h1 k hk]
      simp
    · rw [occursId_memL r b h1 k hk]
      simp
end

mutual
theorem occursId_existsN : ∀ (n : Node) (k : Nat), occursIdN k n = true →
    ∃ b ∈ elemsN n, nidOf b = some k
  | .txt _, k, h => by simp [occursIdN] at h
  | .elem i tg a cs, k, h => by
    rcases Bool.or_eq_true_iff.mp h with h1 | h1
    · exact ⟨Node.elem i tg a cs, by simp [elemsN],
        by simp [nidOf, beq_iff_eq.mp h1]⟩
    · obtain ⟨b, hb, hk⟩ := occursId_existsL cs k h1
      exact ⟨b, by simp [elemsN, hb], hk⟩
theorem occursId_existsL : ∀ (l : List Node) (k : Nat), occursIdL k l = true →
    ∃ b ∈ elemsL l, nidOf b = some k
  | [], k, h => by simp [occursIdL] at h
  | c :: r, k, h => by
    rcases Bool.or_eq_true_iff.mp h with h1 | h1
    · obtain ⟨b, hb, hk⟩ := occursId_existsN c k h1
      exact ⟨b, by simp [elemsL, hb], hk⟩
    · obtain ⟨b, hb, hk⟩ := occursId_existsL r k h1
      exact ⟨b, by simp [elemsL, hb], hk⟩
end

mutual
theorem stripMeta_keepN : ∀ (title : Option String) (tid : Nat) (n b : Node),
    b ∈ elemsN n → ∀ k, nidOf b = some k → occursIdN tid b = true →
    occursIdL k (stripMetaN title (some tid) n) = true
  | title, tid, .txt _, b, hb, k, _, _ => by simp [elemsN] at hb
  | title, tid, .elem i tg a cs, b, hb, k, hk, htid => by
    have hcont : occursIdN tid (Node.elem i tg a cs) = true :=
      occursId_memN (Node.elem i tg a cs) b hb tid htid
    have hguard : (isCandidateTag tg &&
        !containsNodeRef (some tid) (Node.elem i tg a cs) &&
        metadataRule title (Node.elem i tg a cs)) = false := by
      show (isCandidateTag tg && !occursIdN tid (Node.elem i tg a cs) &&
        metadataRule title (Node.elem i tg a cs)) = false
      rw [hcont]
      simp
    show occursIdL k
      (if isCandidateTag tg && !containsNodeRef (some tid) (Node.elem i tg a cs) &&
          metadataRule title (Node.elem i tg a cs) then []
       else [Node.elem i tg a (stripMetaL title (some tid) cs)]) = true
    rw [if_neg (by rw [hguard]; exact Bool.noConfusion)]
    show (occursIdN k (Node.elem i tg a (stripMetaL title (some tid) cs)) || false)
        = true
    rw [Bool.or_false]
    rcases List.mem_cons.mp hb with h1 | h1
    · have hik : i = k := by
        rw [h1] at hk
        injection hk
      show (i == k || occursIdL k (stripMetaL title (some tid) cs)) = true
      rw [hik]
      simp
    · show (i == k || occursIdL k (stripMetaL title (some tid) cs)) = true
      rw [stripMeta_keepL title tid cs b h1 k hk htid]
      simp
theorem stripMeta_keepL : ∀ (title : Option String) (tid : Nat)
    (l : List Node) (b : Node), b ∈ elemsL l → ∀ k, nidOf b = some k →
    occursIdN tid b = true →
    occursIdL k (stripMetaL title (some tid) l) = true
  | title, tid, [], b, hb, k, _, _ => by simp [elemsL] at hb
  | title, tid, c :: r, b, hb, k, hk, htid => by
    show occursIdL k (stripMetaN title (some tid) c ++
      stripMetaL title (some tid) r) = true
    rw [occursIdL_append]
    rcases List.mem_append.mp hb with h1 | h1
    · rw [stripMeta_keepN title tid c b h1 k hk htid]
      simp
    · rw [stripMeta_keepL title tid r b h1 k hk htid]
      simp
end

/-- C9: the metadata stripper never removes the recorded title node or any
block containing it — whatever metadata rules their text or attributes
satisfy: (1) if the title node's id occurs in the container it still occurs
after stripping; (2) any element of the container whose subtree contains the
title node survives (its id still occurs after stripping). -/
theorem strip_metadata_blocks_keeps_title (title : Option String) (tid : Nat)
    (container : Node) :
    (occursIdN tid container = true →
      occursIdN tid (strip_metadata_blocks title (some tid) container) = true) ∧
    (∀ b ∈ elemsN container, ∀ k, nidOf b = some k →
      occursIdN tid b = true →
      occursIdN k (strip_metadata_blocks title (some tid) container) = true) := by
  have hpart2 : ∀ b ∈ elemsN container, ∀ k, nidOf b = some k →
      occursIdN tid b = true →
      occursIdN k (strip_metadata_blocks title (some tid) container) = true := by
    intro b hb k hk htid
    cases container with
    | txt s => simp [elemsN] at hb
    | elem i tg a cs =>
      show occursIdN k (Node.elem i tg a (stripMetaL title (some tid) cs)) = true
      rcases List.mem_cons.mp hb with h1 | h1
      · have hik : i = k := by
          rw [h1] at hk
          injection hk
        show (i == k || occursIdL k (stripMetaL title (some tid) cs)) = true
        rw [hik]
        simp
      · show (i == k || occursIdL k (stripMetaL title (some tid) cs)) = true
        rw [stripMeta_keepL title tid cs b h1 k hk htid]
        simp
  refine ⟨?_, hpart2⟩
  intro hocc
  obtain ⟨b, hb, hk⟩ := occursId_existsN container tid hocc
  exact hpart2 b hb tid hk (occursId_self b tid hk)

/-- C9 witness: the theorem applied at a concrete container whose only block
is a short `class="publication"` div that contains the title heading — the
block satisfies the metadata class rule, yet the title node (id 7) survives
the stripper. -/
theorem strip_metadata_blocks_keeps_title_witness :
    occursIdN 7 (strip_metadata_blocks (some "My Title") (some 7)
      (Node.elem 1 "main" []
        [Node.elem 2 "div" [("class", "publication")]
          [Node.elem 7 "h1" [] [Node.txt "My Title"]]])) = true :=
  (strip_metadata_blocks_keeps_title (some "My Title") 7
    (Node.elem 1 "main" []
      [Node.elem 2 "div" [("class", "publication")]
        [Node.elem 7 "h1" [] [Node.txt "My Title"]]])).1 (by decide)

theorem contentDivFold_ge : ∀ (divs : List Node) (best : Option Node)
    (bestLen : Nat), bestLen ≤ (contentDivFold divs best bestLen).2 := by
  intro divs
  induction divs with
  | nil => intro best bestLen; exact le_refl _
  | cons d r ih =>
    intro best bestLen
    show bestLen ≤ (if keywordAny contentKeywords (attrsIdClassOf d) then
        if bestLen < textLen d then contentDivFold r (some d) (textLen d)
        else contentDivFold r best bestLen
      else contentDivFold r best bestLen).2
    by_cases hkw : keywordAny contentKeywords (attrsIdClassOf d)
    · rw [if_pos hkw]
      by_cases hlt : bestLen < textLen d
      · rw [if_pos hlt]
        exact le_trans (le_of_lt hlt) (ih (some d) (textLen d))
      · rw [if_neg hlt]
        exact ih best bestLen
    · rw [if_neg hkw]
      exact ih best bestLen

theorem contentDivFold_max : ∀ (divs : List Node) (best : Option Node)
    (bestLen : Nat),
    ∀ e ∈ divs.filter (fun d => keywordAny contentKeywords (attrsIdClassOf d)),
      textLen e ≤ (contentDivFold divs best bestLen).2 := by
  intro divs
  induction divs with
  | nil => intro best bestLen e he; simp at he
  | cons d r ih =>
    intro best bestLen e he
    show textLen e ≤ (if keywordAny contentKeywords (attrsIdClassOf d) then
        if bestLen < textLen d then contentDivFold r (some d) (textLen d)
        else contentDivFold r best bestLen
      else contentDivFold r best bestLen).2
    rw [List.filter_cons] at he
    by_cases hkw : keywordAny contentKeywords (attrsIdClassOf d)
    · rw [if_pos hkw] at he ⊢
      rcases List.mem_cons.mp he with h1 | h1
      · subst h1
        by_cases hlt : bestLen < textLen e
        · rw [if_pos hlt]
          exact contentDivFold_ge r (some e) (textLen e)
        · rw [if_neg hlt]
          exact le_trans (Nat.le_of_not_lt hlt) (contentDivFold_ge r best bestLen)
      · by_cases hlt : bestLen < textLen d
        · rw [if_pos hlt]
          exact ih (some d) (textLen d) e h1
        · rw [if_neg hlt]
          exact ih best bestLen e h1
    · rw [if_neg hkw] at he ⊢
      exact ih best bestLen e he

theorem contentDivFold_result : ∀ (divs : List Node) (best : Option Node)
    (bestLen : Nat),
    contentDivFold divs best bestLen = (best, bestLen) ∨
    ∃ d ∈ divs.filter (fun d => keywordAny contentKeywords (attrsIdClassOf d)),
      (contentDivFold divs best bestLen).1 = some d ∧
      (contentDivFold divs best bestLen).2 = textLen d ∧
      bestLen < textLen d := by
  intro divs
  induction divs with
  | nil => intro best bestLen; exact Or.inl rfl
  | cons d r ih =>
    intro best bestLen
    have hstep : ∀ b2 l2, contentDivFold (d :: r) best bestLen
        = contentDivFold r b2 l2 →
        (contentDivFold r b2 l2 = (b2, l2) ∨
          ∃ e ∈ r.filter (fun x => keywordAny contentKeywords (attrsIdClassOf x)),
            (contentDivFold r b2 l2).1 = some e ∧
            (contentDivFold r b2 l2).2 = textLen e ∧ l2 < textLen e) →
        True := fun _ _ _ _ => trivial
    clear hstep
    by_cases hkw : keywordAny contentKeywords (attrsIdClassOf d)
    · by_cases hlt : bestLen < textLen d
      · have hred : contentDivFold (d :: r) best bestLen
            = contentDivFold r (some d) (textLen d) := by
          show (if keywordAny contentKeywords (attrsIdClassOf d) then
              if bestLen < textLen d then contentDivFold r (some d) (textLen d)
              else contentDivFold r best bestLen
            else contentDivFold r best bestLen)
            = contentDivFold r (some d) (textLen d)
          rw [if_pos hkw, if_pos hlt]
        rw [hred]
        have hmem : d ∈ (d :: r).filter
            (fun x => keywordAny contentKeywords (attrsIdClassOf x)) := by
          rw [List.filter_cons, if_pos hkw]
          simp
        rcases ih (some d) (textLen d) with h1 | ⟨e, he, h2, h3, h4⟩
        · exact Or.inr ⟨d, hmem, by rw [h1], by rw [h1], hlt⟩
        · refine Or.inr ⟨e, ?_, h2, h3, lt_trans hlt h4⟩
          rw [List.filter_cons, if_pos hkw]
          simp [he]
      · have hred : contentDivFold (d :: r) best bestLen
            = contentDivFold r best bestLen := by
          show (if keywordAny contentKeywords (attrsIdClassOf d) then
              if bestLen < textLen d then contentDivFold r (some d) (textLen d)
              else contentDivFold r best bestLen
            else contentDivFold r best bestLen)
            = contentDivFold r best bestLen
          rw [if_pos hkw, if_neg hlt]
        rw [hred]
        rcases ih best bestLen with h1 | ⟨e, he, h2, h3, h4⟩
        · exact Or.inl h1
        · refine Or.inr ⟨e, ?_, h2, h3, h4⟩
          rw [List.filter_cons, if_pos hkw]
          simp [he]
    · have hred : contentDivFold (d :: r) best bestLen
          = contentDivFold r best bestLen := by
        show (if keywordAny contentKeywords (attrsIdClassOf d) then
            if bestLen < textLen d then contentDivFold r (some d) (textLen d)
            else contentDivFold r best bestLen
          else contentDivFold r best bestLen)
          = contentDivFold r best bestLen
        rw [if_neg hkw]
      rw [hred]
      rcases ih best bestLen with h1 | ⟨e, he, h2, h3, h4⟩
      · exact Or.inl h1
      · refine Or.inr ⟨e, ?_, h2, h3, h4⟩
        rw [List.filter_cons, if_neg hkw]
        exact he

/-- C3: on a chrome-stripped document, `_select_container` (1) returns the
first `article` element when one exists; (2) else the first `main` element
when one exists; (3) else it scans the divs whose id/class text contains a
content keyword (case-insensitive substring): any returned div is such a
keyword div of maximal visible-text length with at least `MIN_TEXT_LEN`
(200) characters; some keyword div reaching the threshold guarantees a
result; and when every keyword div is below the threshold it reports "not
found". -/
theorem select_container_spec (soup : Node) :
    (∀ a, findTagL "article" (childrenOf soup) = some a →
      select_container soup = some a) ∧
    (∀ m, findTagL "article" (childrenOf soup) = none →
      findTagL "main" (childrenOf soup) = some m →
      select_container soup = some m) ∧
    (findTagL "article" (childrenOf soup) = none →
      findTagL "main" (childrenOf soup) = none →
      (∀ d, select_container soup = some d →
        d ∈ keywordDivs soup ∧ MIN_TEXT_LEN ≤ textLen d ∧
          ∀ e ∈ keywordDivs soup, textLen e ≤ textLen d) ∧
      ((∃ e ∈ keywordDivs soup, MIN_TEXT_LEN ≤ textLen e) →
        ∃ d, select_container soup = some d) ∧
      ((∀ e ∈ keywordDivs soup, textLen e < MIN_TEXT_LEN) →
        select_container soup = none)) := by
  refine ⟨?_, ?_, ?_⟩
  · intro a ha
    unfold select_container
    rw [ha]
  · intro m ha hm
    unfold select_container
    rw [ha, hm]
  · intro ha hm
    have hsel : select_container soup
        = (match contentDivFold (findAllL "div" (childrenOf soup)) none 0 with
          | (some d, bestLen) => if MIN_TEXT_LEN ≤ bestLen then some d else none
          | (none, _) => none) := by
      unfold select_container
      rw [ha, hm]
    rcases contentDivFold_result (findAllL "div" (childrenOf soup)) none 0 with
      hL | ⟨d0, hmem, h1, h2, h3⟩
    · have hnone : select_container soup = none := by
        rw [hsel, hL]
      refine ⟨?_, ?_, ?_⟩
      · intro d hd
        rw [hnone] at hd
        exact Option.noConfusion hd
      · rintro ⟨e, he, hlen⟩
        exfalso
        have := contentDivFold_max (findAllL "div" (childrenOf soup)) none 0 e he
        rw [hL] at this
        have h200 : MIN_TEXT_LEN ≤ (0 : Nat) := le_trans hlen this
        simp [MIN_TEXT_LEN] at h200
      · intro _
        exact hnone
    · have hpair : contentDivFold (findAllL "div" (childrenOf soup)) none 0
          = (some d0, textLen d0) :=
        Prod.ext_iff.mpr ⟨h1, h2⟩
      have hsel2 : select_container soup
          = if MIN_TEXT_LEN ≤ textLen d0 then some d0 else none := by
        rw [hsel, hpair]
      have hmax : ∀ e ∈ keywordDivs soup, textLen e ≤ textLen d0 := by
        intro e he
        have := contentDivFold_max (findAllL "div" (childrenOf soup)) none 0 e he
        rw [h2] at this
        exact this
      refine ⟨?_, ?_, ?_⟩
      · intro d hd
        rw [hsel2] at hd
        by_cases h200 : MIN_TEXT_LEN ≤ textLen d0
        · rw [if_pos h200] at hd
          have hdd : d = d0 := by
            injection hd.symm
          subst hdd
          exact ⟨hmem, h200, hmax⟩
        · rw [if_neg h200] at hd
          exact Option.noConfusion hd
      · rintro ⟨e, he, hlen⟩
        have h200 : MIN_TEXT_LEN ≤ textLen d0 := le_trans hlen (hmax e he)
        exact ⟨d0, by rw [hsel2, if_pos h200]⟩
      · intro hall
        have hlt : textLen d0 < MIN_TEXT_LEN := hall d0 hmem
        rw [hsel2, if_neg (Nat.not_le_of_lt hlt)]

/-- C3 witness: the theorem applied at concrete documents — a document with
an `article` (and a `main`) selects the article; with only a `main` it
selects the main; with neither, a keyword div below the 200-character
threshold yields "not found". -/
theorem select_container_spec_witness :
    select_container
      (Node.elem 0 "[document]" []
        [Node.elem 1 "body" []
          [Node.elem 2 "article" [] [Node.txt "A"],
           Node.elem 3 "main" [] [Node.txt "M"]]])
      = some (Node.elem 2 "article" [] [Node.txt "A"]) ∧
    select_container
      (Node.elem 0 "[document]" []
        [Node.elem 1 "body" [] [Node.elem 3 "main" [] [Node.txt "M"]]])
      = some (Node.elem 3 "main" [] [Node.txt "M"]) ∧
    select_container
      (Node.elem 0 "[document]" []
        [Node.elem 1 "body" []
          [Node.elem 2 "div" [("class", "content")] [Node.txt "short text"]]])
      = none := by
  refine ⟨?_, ?_, ?_⟩
  · exact (select_container_spec _).1 _ rfl
  · exact (select_container_spec _).2.1 _ rfl rfl
  · refine ((select_container_spec
        (Node.elem 0 "[document]" []
          [Node.elem 1 "body" []
            [Node.elem 2 "div" [("class", "content")]
              [Node.txt "short text"]]])).2.2 rfl rfl).2.2 ?_
    intro e he
    have he2 : e = Node.elem 2 "div" [("class", "content")] [Node.txt "short text"] := by
      have : keywordDivs (Node.elem 0 "[document]" []
          [Node.elem 1 "body" []
            [Node.elem 2 "div" [("class", "content")] [Node.txt "short text"]]])
          = [Node.elem 2 "div" [("class", "content")] [Node.txt "short text"]] := rfl
      rw [this] at he
      simpa using he
    rw [he2]
    show textLen (Node.elem 2 "div" [("class", "content")] [Node.txt "short text"])
        < MIN_TEXT_LEN
    decide

/-! ## C2 lemmas: urljoin produces absolute URLs -/

theorem takeWhile_append_all {p : Char → Bool} : ∀ (l : List Char),
    (∀ c ∈ l, p c = true) → ∀ t, (l ++ t).takeWhile p = l ++ t.takeWhile p := by
  intro l
  induction l with
  | nil => intro _ t; simp
  | cons c r ih =>
    intro h t
    have hc : p c = true := h c (by simp)
    show ((c :: (r ++ t)).takeWhile p) = c :: (r ++ t.takeWhile p)
    rw [List.takeWhile_cons, if_pos hc, ih (fun x hx => h x (by simp [hx])) t]

theorem dropWhile_append_all {p : Char → Bool} : ∀ (l : List Char),
    (∀ c ∈ l, p c = true) → ∀ t, (l ++ t).dropWhile p = t.dropWhile p := by
  intro l
  induction l with
  | nil => intro _ t; simp
  | cons c r ih =>
    intro h t
    have hc : p c = true := h c (by simp)
    show ((c :: (r ++ t)).dropWhile p) = t.dropWhile p
    rw [List.dropWhile_cons, if_pos hc, ih (fun x hx => h x (by simp [hx])) t]

theorem schemeSplit_some (l sch rest : List Char)
    (h : schemeSplit l = some (sch, rest)) :
    (∃ c sch2, sch = c :: sch2 ∧ isAlphaChar c = true) ∧
    (∀ c ∈ sch, isSchemeChar c = true) ∧
    l = sch ++ ':' :: rest := by
  unfold schemeSplit at h
  cases htw : l.takeWhile isSchemeChar with
  | nil => rw [htw] at h; exact Option.noConfusion h
  | cons c sch2 =>
    rw [htw] at h
    cases hdw : l.dropWhile isSchemeChar with
    | nil => rw [hdw] at h; exact Option.noConfusion h
    | cons d rest2 =>
      rw [hdw] at h
      dsimp only at h
      by_cases hcond : d = ':' ∧ isAlphaChar c = true
      · rw [if_pos hcond] at h
        injection h with h2
        have hsch : sch = c :: sch2 := by
          have := congrArg Prod.fst h2
          simpa using this.symm
        have hrest : rest = rest2 := by
          have := congrArg Prod.snd h2
          simpa using this.symm
        refine ⟨⟨c, sch2, hsch, hcond.2⟩, ?_, ?_⟩
        · intro x hx
          rw [hsch, ← htw] at hx
          exact List.mem_takeWhile_imp hx
        · rw [hsch, hrest, ← htw]
          rw [show (':' :: rest2 : List Char) = d :: rest2 from by rw [hcond.1]]
          rw [← hdw]
          exact (List.takeWhile_append_dropWhile isSchemeChar l).symm
      · rw [if_neg hcond] at h
        exact Option.noConfusion h

theorem schemeSplit_mk (sch tail : List Char) (c : Char) (sch2 : List Char)
    (hsch : sch = c :: sch2) (halpha : isAlphaChar c = true)
    (hall : ∀ x ∈ sch, isSchemeChar x = true) :
    schemeSplit (sch ++ ':' :: tail) = some (sch, tail) := by
  have hcolon : isSchemeChar ':' = false := by decide
  have htw : (sch ++ ':' :: tail).takeWhile isSchemeChar = sch := by
    rw [takeWhile_append_all sch hall, List.takeWhile_cons, if_neg (by simp [hcolon])]
    simp
  have hdw : (sch ++ ':' :: tail).dropWhile isSchemeChar = ':' :: tail := by
    rw [dropWhile_append_all sch hall, List.dropWhile_cons, if_neg (by simp [hcolon])]
  unfold schemeSplit
  rw [htw, hdw, hsch]
  dsimp only
  rw [if_pos ⟨rfl, halpha⟩]

theorem urljoin_absolute (base : String) (hb : isAbsoluteUrl base = true) :
    ∀ u : String, isAbsoluteUrl (urljoin base u) = true := by
  intro u
  have habs : ∀ l : List Char, isAbsoluteUrl (⟨l⟩ : String)
      = (schemeSplit l).isSome := fun _ => rfl
  obtain ⟨⟨bsch, brest⟩, hbs⟩ : ∃ p, schemeSplit base.data = some p := by
    unfold isAbsoluteUrl at hb
    cases hbs : schemeSplit base.data with
    | none => rw [hbs] at hb; exact Bool.noConfusion hb
    | some p => exact ⟨p, rfl⟩
  obtain ⟨⟨c, sch2, hsch, halpha⟩, hall, hbase⟩ := schemeSplit_some _ _ _ hbs
  have hjoined : ∀ tail : List Char,
      (schemeSplit (bsch ++ ':' :: tail)).isSome = true := by
    intro tail
    rw [schemeSplit_mk bsch tail c sch2 hsch halpha hall]
    rfl
  show (schemeSplit (urljoinL base.data u.data)).isSome = true
  unfold urljoinL
  by_cases hemp : u.data.isEmpty
  · rw [if_pos hemp]
    unfold isAbsoluteUrl at hb
    exact hb
  · rw [if_neg hemp]
    cases hus : schemeSplit u.data with
    | some p =>
      obtain ⟨usch, urest⟩ := p
      rw [hbs]
      dsimp only
      by_cases hlow : lowL usch = lowL bsch
      · rw [if_pos hlow]
        exact hjoined _
      · rw [if_neg hlow]
        rw [hus]
        rfl
    | none =>
      rw [hbs]
      dsimp only
      exact hjoined _

theorem getAttr_setAttr_same : ∀ (a : List (String × String)) (k v : String),
    getAttr (setAttr a k v) k = some v := by
  intro a
  induction a with
  | nil =>
    intro k v
    show (if k == k then some v else none) = some v
    rw [if_pos (by simp)]
  | cons p r ih =>
    intro k v
    obtain ⟨k0, v0⟩ := p
    show getAttr (if k0 == k then (k, v) :: r else (k0, v0) :: setAttr r k v) k
        = some v
    by_cases hk : k0 == k
    · rw [if_pos hk]
      show (if k == k then some v else getAttr r k) = some v
      rw [if_pos (by simp)]
    · rw [if_neg hk]
      show (if k0 == k then some v0 else getAttr (setAttr r k v) k) = some v
      rw [if_neg hk, ih]

theorem getAttr_delAttrs (keys : List String) (k : String)
    (hk : keys.contains k = false) :
    ∀ a : List (String × String), getAttr (delAttrs a keys) k = getAttr a k := by
  intro a
  induction a with
  | nil => rfl
  | cons p r ih =>
    obtain ⟨k0, v0⟩ := p
    show getAttr (List.filter (fun p => !(keys.contains p.1)) ((k0, v0) :: r)) k
        = getAttr ((k0, v0) :: r) k
    rw [List.filter_cons]
    by_cases hm : keys.contains k0
    · have hne : (k0 == k) = false := by
        cases hbe : k0 == k with
        | false => rfl
        | true =>
          rw [show k0 = k from by simpa using hbe] at hm
          rw [hm] at hk
          exact Bool.noConfusion hk
      rw [if_neg (by rw [hm]; simp)]
      show getAttr (delAttrs r keys) k = getAttr ((k0, v0) :: r) k
      rw [ih]
      show getAttr r k = if k0 == k then some v0 else getAttr r k
      rw [if_neg (by simp [hne])]
    · have hm2 : keys.contains k0 = false := by
        cases h2 : keys.contains k0 with
        | false => rfl
        | true => exact absurd h2 hm
      rw [if_pos (by rw [hm2]; rfl)]
      show (if k0 == k then some v0 else getAttr (delAttrs r keys) k)
          = if k0 == k then some v0 else getAttr r k
      by_cases hbe : k0 == k
      · rw [if_pos hbe, if_pos hbe]
      · rw [if_neg hbe, if_neg hbe, ih]

theorem normalize_img_tag_src (a : List (String × String)) (base : String)
    (a2 : List (String × String)) (s : String)
    (h : normalize_img_tag a base = some (a2, s)) :
    ∃ src0, getAttr a2 "src" = some (urljoin base src0) := by
  unfold normalize_img_tag at h
  cases hres : resolveImgSrc a with
  | none => rw [hres] at h; exact Option.noConfusion h
  | some src =>
    rw [hres] at h
    dsimp only at h
    injection h with h2
    have ha2 : a2 = delAttrs (setAttr a "src" (urljoin base src)) lazyAttrKeys := by
      have := congrArg Prod.fst h2
      simpa using this.symm
    refine ⟨src, ?_⟩
    rw [ha2, getAttr_delAttrs lazyAttrKeys "src" (by decide),
      getAttr_setAttr_same]

theorem imgsOkL_append : ∀ xs ys : List Node,
    imgsOkL (xs ++ ys) = (imgsOkL xs && imgsOkL ys) := by
  intro xs ys
  induction xs with
  | nil => simp [imgsOkL]
  | cons c r ih =>
    show (imgsOkN c && imgsOkL (r ++ ys)) = ((imgsOkN c && imgsOkL r) && imgsOkL ys)
    rw [ih, Bool.and_assoc]

mutual
theorem normImages_okN (base : String) (hb : isAbsoluteUrl base = true) :
    ∀ n : Node, imgsOkL (normImagesN base n) = true
  | .txt s => by
    show (imgsOkN (.txt s) && imgsOkL []) = true
    rfl
  | .elem i tg a cs => by
    show imgsOkL (if tg == "img" then
        match normalize_img_tag a base with
        | none => []
        | some (a2, _) => [Node.elem i tg a2 (normImagesL base cs)]
      else [Node.elem i tg a (normImagesL base cs)]) = true
    by_cases htg : tg == "img"
    · rw [if_pos htg]
      cases hnorm : normalize_img_tag a base with
      | none => rfl
      | some p =>
        obtain ⟨a2, s⟩ := p
        show imgsOkL [Node.elem i tg a2 (normImagesL base cs)] = true
        show (imgsOkN (Node.elem i tg a2 (normImagesL base cs)) && true) = true
        rw [Bool.and_true]
        show ((if tg == "img" then imgSrcOkAttrs a2 else true) &&
          imgsOkL (normImagesL base cs)) = true
        rw [if_pos htg, normImages_okL base hb cs, Bool.and_true]
        obtain ⟨src0, hsrc⟩ := normalize_img_tag_src a base a2 s hnorm
        show (match getAttr a2 "src" with
          | none => true
          | some s => if s = "" then true else isAbsoluteUrl s) = true
        rw [hsrc]
        dsimp only
        by_cases hemp : urljoin base src0 = ""
        · rw [if_pos hemp]
        · rw [if_neg hemp]
          exact urljoin_absolute base hb src0
    · rw [if_neg htg]
      show (imgsOkN (Node.elem i tg a (normImagesL base cs)) && true) = true
      rw [Bool.and_true]
      show ((if tg == "img" then imgSrcOkAttrs a else true) &&
        imgsOkL (normImagesL base cs)) = true
      rw [if_neg htg, normImages_okL base hb cs, Bool.and_true]
theorem normImages_okL (base : String) (hb : isAbsoluteUrl base = true) :
    ∀ l : List Node, imgsOkL (normImagesL base l) = true
  | [] => rfl
  | c :: r => by
    show imgsOkL (normImagesN base c ++ normImagesL base r) = true
    rw [imgsOkL_append, normImages_okN base hb c, normImages_okL base hb r]
    rfl
end

mutual
theorem collect_absN : ∀ n : Node, imgsOkN n = true →
    ∀ e ∈ collectN n, isAbsoluteUrl e.url = true
  | .txt _, _, e, he => by simp [collectN] at he
  | .elem i tg a cs, h, e, he => by
    have hcs : imgsOkL cs = true := by
      have h2 : ((if tg == "img" then imgSrcOkAttrs a else true) && imgsOkL cs)
          = true := h
      exact (Bool.and_eq_true_iff.mp h2).2
    exact collect_absL cs hcs e he
theorem collect_absL : ∀ l : List Node, imgsOkL l = true →
    ∀ e ∈ collectL l, isAbsoluteUrl e.url = true
  | [], _, e, he => by simp [collectL] at he
  | c :: r, h, e, he => by
    have hc : imgsOkN c = true := (Bool.and_eq_true_iff.mp h).1
    have hr : imgsOkL r = true := (Bool.and_eq_true_iff.mp h).2
    cases c with
    | txt s =>
      have he2 : e ∈ ([] : List ImageRec) ++ collectN (Node.txt s) ++ collectL r :=
        he
      rcases List.mem_append.mp he2 with h1 | h1
      · rcases List.mem_append.mp h1 with h2 | h2
        · simp at h2
        · exact collect_absN _ hc e h2
      · exact collect_absL r hr e h1
    | elem i tg a cs =>
      have he2 : e ∈ (if tg == "img" then entryFromImg a r else []) ++
          collectN (Node.elem i tg a cs) ++ collectL r := he
      rcases List.mem_append.mp he2 with h1 | h1
      · rcases List.mem_append.mp h1 with h2 | h2
        · by_cases htg : tg == "img"
          · rw [if_pos htg] at h2
            unfold entryFromImg at h2
            cases hsrc : getAttr a "src" with
            | none => rw [hsrc] at h2; simp at h2
            | some src =>
              rw [hsrc] at h2
              dsimp only at h2
              by_cases hemp : src = ""
              · rw [if_pos hemp] at h2
                simp at h2
              · rw [if_neg hemp] at h2
                have hee := List.mem_singleton.mp h2
                rw [hee]
                show isAbsoluteUrl src = true
                have hok : imgSrcOkAttrs a = true := by
                  have h3 : ((if tg == "img" then imgSrcOkAttrs a else true) &&
                      imgsOkL cs) = true := hc
                  have h4 := (Bool.and_eq_true_iff.mp h3).1
                  rw [if_pos htg] at h4
                  exact h4
                have h5 : (match getAttr a "src" with
                  | none => true
                  | some s => if s = "" then true else isAbsoluteUrl s) = true := hok
                rw [hsrc] at h5
                dsimp only at h5
                rw [if_neg hemp] at h5
                exact h5
          · rw [if_neg htg] at h2
            simp at h2
        · exact collect_absN _ hc e h2
      · exact collect_absL r hr e h1
end



/-! ## C4 lemmas: figure flattening -/

theorem normFigsL_append (base : String) : ∀ xs ys : List Node,
    normFigsL base (xs ++ ys) = normFigsL base xs ++ normFigsL base ys := by
  intro xs ys
  induction xs with
  | nil => simp [normFigsL]
  | cons c r ih =>
    show normFigsN base c ++ normFigsL base (r ++ ys)
        = (normFigsN base c ++ normFigsL base r) ++ normFigsL base ys
    rw [ih, List.append_assoc]

/-- C4: for every figure element in the container — (1) a figure holding no
image is discarded entirely; (2) a figure whose image source cannot be
resolved is discarded entirely; (3) with a resolvable image and a nested
caption element with non-empty text, the figure is replaced by the bare
normalized image followed by a new paragraph holding the caption text
emphasized; (4) with no caption element, by the bare image alone; (5) the
replacement happens in place, preserving document order relative to the
surrounding siblings; and (6) on a concrete container with text before and
after, the result renders as image line, blank line, emphasized caption
line, in document order, and produces exactly one image entry with matching
url, alt and caption. -/
theorem normalize_figures_spec :
    (∀ (base : String) (cs : List Node), findTagL "img" cs = none →
      flattenFigure base cs = []) ∧
    (∀ (base : String) (cs : List Node) (ii : Nat) (itg : String)
      (ia : List (String × String)) (ics : List Node),
      findTagL "img" cs = some (Node.elem ii itg ia ics) →
      normalize_img_tag ia base = none → flattenFigure base cs = []) ∧
    (∀ (base : String) (cs : List Node) (ii : Nat) (itg : String)
      (ia ia2 : List (String × String)) (ics : List Node) (s : String)
      (fc : Node) (ctext : List Char),
      findTagL "img" cs = some (Node.elem ii itg ia ics) →
      normalize_img_tag ia base = some (ia2, s) →
      findTagL "figcaption" cs = some fc → getTextS fc = ctext → ctext ≠ [] →
      flattenFigure base cs =
        [Node.elem ii itg ia2 ics,
         Node.elem 0 "p" [] [Node.elem 0 "em" [] [Node.txt ⟨ctext⟩]]]) ∧
    (∀ (base : String) (cs : List Node) (ii : Nat) (itg : String)
      (ia ia2 : List (String × String)) (ics : List Node) (s : String),
      findTagL "img" cs = some (Node.elem ii itg ia ics) →
      normalize_img_tag ia base = some (ia2, s) →
      findTagL "figcaption" cs = none →
      flattenFigure base cs = [Node.elem ii itg ia2 ics]) ∧
    (∀ (base : String) (pre post : List Node) (j : Nat)
      (fa : List (String × String)) (fcs : List Node),
      normFigsL base (pre ++ Node.elem j "figure" fa fcs :: post)
        = normFigsL base pre ++ flattenFigure base fcs ++ normFigsL base post) ∧
    (html_to_markdown
        (normalize_images "https://www.jw.org/en/"
          (normalize_figures "https://www.jw.org/en/"
            (Node.elem 1 "main" []
              [Node.elem 2 "p" [] [Node.txt "First paragraph."],
               Node.elem 3 "figure" []
                 [Node.elem 4 "img"
                    [("src", "/images/cover.jpg"), ("alt", "Cover")] [],
                  Node.elem 5 "figcaption" [] [Node.txt "Cover caption"]],
               Node.elem 6 "p" [] [Node.txt "Second paragraph."]])))
      = "First paragraph.\n\n![Cover](https://www.jw.org/images/cover.jpg)\n\n*Cover caption*\n\nSecond paragraph." ∧
     collect_images
        (normalize_images "https://www.jw.org/en/"
          (normalize_figures "https://www.jw.org/en/"
            (Node.elem 1 "main" []
              [Node.elem 2 "p" [] [Node.txt "First paragraph."],
               Node.elem 3 "figure" []
                 [Node.elem 4 "img"
                    [("src", "/images/cover.jpg"), ("alt", "Cover")] [],
                  Node.elem 5 "figcaption" [] [Node.txt "Cover caption"]],
               Node.elem 6 "p" [] [Node.txt "Second paragraph."]])))
      = [⟨"https://www.jw.org/images/cover.jpg", some "Cover",
          some "Cover caption"⟩]) := by
  refine ⟨?_, ?_, ?_, ?_, ?_, by decide, by decide⟩
  · intro base cs h
    unfold flattenFigure
    rw [h]
  · intro base cs ii itg ia ics himg hnorm
    unfold flattenFigure
    rw [himg]
    dsimp only
    rw [hnorm]
  · intro base cs ii itg ia ia2 ics s fc ctext himg hnorm hfc hct hne
    unfold flattenFigure
    rw [himg]
    dsimp only
    rw [hnorm]
    dsimp only
    rw [hfc]
    dsimp only
    rw [hct]
    have hemp : ctext.isEmpty = false := by
      cases ctext with
      | nil => exact absurd rfl hne
      | cons c r => rfl
    rw [if_neg (by rw [hemp]; exact Bool.noConfusion)]
  · intro base cs ii itg ia ia2 ics s himg hnorm hfc
    unfold flattenFigure
    rw [himg]
    dsimp only
    rw [hnorm]
    dsimp only
    rw [hfc]
  · intro base pre post j fa fcs
    rw [normFigsL_append]
    show normFigsL base pre ++
        (normFigsN base (Node.elem j "figure" fa fcs) ++ normFigsL base post)
      = normFigsL base pre ++ flattenFigure base fcs ++ normFigsL base post
    have hfig : normFigsN base (Node.elem j "figure" fa fcs)
        = flattenFigure base fcs := by
      show (if "figure" == "figure" then flattenFigure base fcs
        else [Node.elem j "figure" fa (normFigsL base fcs)]) = flattenFigure base fcs
      rw [if_pos (by simp)]
    rw [hfig, List.append_assoc]

/-- C4 witness: the flattening clauses applied at concrete figures — a
figure with image and caption becomes the image followed by the emphasized
caption paragraph, and a figure with no image is dropped. -/
theorem normalize_figures_spec_witness :
    flattenFigure "https://www.jw.org/en/"
      [Node.elem 4 "img" [("src", "/images/cover.jpg"), ("alt", "Cover")] [],
       Node.elem 5 "figcaption" [] [Node.txt "Cover caption"]]
      = [Node.elem 4 "img"
           [("src", "https://www.jw.org/images/cover.jpg"), ("alt", "Cover")] [],
         Node.elem 0 "p" []
           [Node.elem 0 "em" [] [Node.txt "Cover caption"]]] ∧
    flattenFigure "https://www.jw.org/en/"
      [Node.elem 5 "figcaption" [] [Node.txt "Only a caption"]] = [] := by
  constructor
  · exact normalize_figures_spec.2.2.1 "https://www.jw.org/en/"
      [Node.elem 4 "img" [("src", "/images/cover.jpg"), ("alt", "Cover")] [],
       Node.elem 5 "figcaption" [] [Node.txt "Cover caption"]]
      4 "img" [("src", "/images/cover.jpg"), ("alt", "Cover")]
      [("src", "https://www.jw.org/images/cover.jpg"), ("alt", "Cover")] []
      "https://www.jw.org/images/cover.jpg"
      (Node.elem 5 "figcaption" [] [Node.txt "Cover caption"])
      ("Cover caption").data rfl rfl rfl rfl (by decide)
  · exact normalize_figures_spec.1 "https://www.jw.org/en/"
      [Node.elem 5 "figcaption" [] [Node.txt "Only a caption"]] rfl

/-! ## C2 lemmas: the fallback image resolver also yields absolute URLs -/

theorem schemeChar_of_low (c : Char) (h : isSchemeChar (lowChar c) = true) :
    isSchemeChar c = true := by
  unfold lowChar at h
  by_cases hAZ : 'A' ≤ c ∧ c ≤ 'Z'
  · show (isAsciiAlphanum c || c == '+' || c == '-' || c == '.') = true
    show ((('a' ≤ c && c ≤ 'z') || ('A' ≤ c && c ≤ 'Z') || ('0' ≤ c && c ≤ '9'))
      || c == '+' || c == '-' || c == '.') = true
    simp [hAZ.1, hAZ.2]
  · rw [if_neg hAZ] at h
    exact h

theorem alphaChar_of_low (c : Char) (h : isAlphaChar (lowChar c) = true) :
    isAlphaChar c = true := by
  unfold lowChar at h
  by_cases hAZ : 'A' ≤ c ∧ c ≤ 'Z'
  · show (('a' ≤ c && c ≤ 'z') || ('A' ≤ c && c ≤ 'Z')) = true
    simp [hAZ.1, hAZ.2]
  · rw [if_neg hAZ] at h
    exact h

theorem matchCI_some : ∀ (pat l m rest : List Char),
    matchCI pat l = some (m, rest) →
    l = m ++ rest ∧ (∀ c ∈ m, ∃ p ∈ pat, lowChar c = lowChar p) ∧
    (∀ (p0 : Char) (ps : List Char), pat = p0 :: ps →
      ∃ c0 m2, m = c0 :: m2 ∧ lowChar c0 = lowChar p0) := by
  intro pat
  induction pat with
  | nil =>
    intro l m rest h
    have hm : m = [] ∧ rest = l := by
      have h2 : some (([] : List Char), l) = some (m, rest) := h
      injection h2 with h3
      exact ⟨(congrArg Prod.fst h3).symm, (congrArg Prod.snd h3).symm⟩
    refine ⟨by rw [hm.1, hm.2]; rfl, ?_, ?_⟩
    · intro c hc
      rw [hm.1] at hc
      simp at hc
    · intro p0 ps hps
      exact List.noConfusion hps
  | cons p ps ih =>
    intro l m rest h
    cases l with
    | nil => exact Option.noConfusion h
    | cons c cs =>
      have h2 : (if lowChar c == lowChar p then
          match matchCI ps cs with
          | some (m2, r2) => some (c :: m2, r2)
          | none => none
        else none) = some (m, rest) := h
      by_cases hlc : lowChar c == lowChar p
      · rw [if_pos hlc] at h2
        cases hm2 : matchCI ps cs with
        | none => rw [hm2] at h2; exact Option.noConfusion h2
        | some p2 =>
          obtain ⟨m2, r2⟩ := p2
          rw [hm2] at h2
          dsimp only at h2
          injection h2 with h3
          have hmm : m = c :: m2 ∧ rest = r2 := by
            exact ⟨(congrArg Prod.fst h3).symm, (congrArg Prod.snd h3).symm⟩
          obtain ⟨hcs, hmemi, -⟩ := ih cs m2 r2 hm2
          refine ⟨?_, ?_, ?_⟩
          · rw [hmm.1, hmm.2, hcs]
            rfl
          · intro x hx
            rw [hmm.1] at hx
            rcases List.mem_cons.mp hx with h4 | h4
            · exact ⟨p, by simp, by rw [h4]; exact beq_iff_eq.mp hlc⟩
            · obtain ⟨q, hq, hlq⟩ := hmemi x h4
              exact ⟨q, by simp [hq], hlq⟩
          · intro p0 ps0 hps
            have hp0 : p0 = p := by
              injection hps with h5
              exact h5.symm
            exact ⟨c, m2, hmm.1, by rw [hp0]; exact beq_iff_eq.mp hlc⟩
      · rw [if_neg hlc] at h2
        exact Option.noConfusion h2

theorem matchUrlAt_abs (hostTail l m rest : List Char)
    (h : matchUrlAt hostTail l = some (m, rest)) :
    isAbsoluteUrl (⟨m⟩ : String) = true := by
  unfold matchUrlAt at h
  cases h1 : matchCI ("http").data l with
  | none => rw [h1] at h; exact Option.noConfusion h
  | some p1 =>
    obtain ⟨m1, r1⟩ := p1
    rw [h1] at h
    dsimp only at h
    obtain ⟨-, hmem1, hhead1⟩ := matchCI_some ("http").data l m1 r1 h1
    obtain ⟨c0, m2h, hm1, hlc0⟩ := hhead1 'h' ['t', 't', 'p'] (by decide)
    have hscheme1 : ∀ c ∈ m1, isSchemeChar c = true := by
      intro c hc
      obtain ⟨p, hp, hlp⟩ := hmem1 c hc
      apply schemeChar_of_low
      rw [hlp]
      have hp2 : p = 'h' ∨ p = 't' ∨ p = 't' ∨ p = 'p' := by
        simpa using hp
      rcases hp2 with rfl | rfl | rfl | rfl <;> decide
    have halpha0 : isAlphaChar c0 = true := by
      apply alphaChar_of_low
      rw [hlc0]
      decide
    have hfinish : ∀ (mm : List Char), (∃ sch2, mm = c0 :: sch2) →
        (∀ c ∈ mm, isSchemeChar c = true) →
        ∀ (d : Char) (r3 : List Char),
        (if d = ':' then
          match matchCI hostTail r3 with
          | some (m3, r4) =>
            if (r4.takeWhile urlBodyChar).isEmpty then none
            else some (mm ++ ':' :: (m3 ++ r4.takeWhile urlBodyChar),
              r4.drop (r4.takeWhile urlBodyChar).length)
          | none => none
        else none) = some (m, rest) →
        isAbsoluteUrl (⟨m⟩ : String) = true := by
      intro mm hsch2 hallmm d r3 hif
      by_cases hd : d = ':'
      · rw [if_pos hd] at hif
        cases h3 : matchCI hostTail r3 with
        | none => rw [h3] at hif; exact Option.noConfusion hif
        | some p3 =>
          obtain ⟨m3, r4⟩ := p3
          rw [h3] at hif
          dsimp only at hif
          by_cases hb : (r4.takeWhile urlBodyChar).isEmpty
          · rw [if_pos hb] at hif
            exact Option.noConfusion hif
          · rw [if_neg hb] at hif
            injection hif with h4
            have hmeq : m = mm ++ ':' :: (m3 ++ r4.takeWhile urlBodyChar) := by
              have := congrArg Prod.fst h4
              simpa using this.symm
            obtain ⟨sch2, hsch2eq⟩ := hsch2
            show (schemeSplit m).isSome = true
            rw [hmeq, schemeSplit_mk mm (m3 ++ r4.takeWhile urlBodyChar) c0 sch2
              hsch2eq halpha0 hallmm]
            rfl
      · rw [if_neg hd] at hif
        exact Option.noConfusion hif
    cases r1 with
    | nil =>
      exact Option.noConfusion h
    | cons cs1 rs1 =>
      dsimp only at h
      by_cases hs : lowChar cs1 == 's'
      · rw [if_pos hs] at h
        dsimp only at h
        cases hrs : rs1 with
        | nil =>
          rw [hrs] at h
          dsimp only at h
          exact Option.noConfusion h
        | cons d r3 =>
          rw [hrs] at h
          dsimp only at h
          refine hfinish (m1 ++ [cs1]) ⟨m2h ++ [cs1], by rw [hm1]; rfl⟩ ?_ d r3 h
          intro c hc
          rcases List.mem_append.mp hc with h5 | h5
          · exact hscheme1 c h5
          · have hcc : c = cs1 := by simpa using h5
            rw [hcc]
            apply schemeChar_of_low
            rw [beq_iff_eq.mp hs]
            decide
      · rw [if_neg hs] at h
        dsimp only at h
        refine hfinish m1 ⟨m2h, hm1⟩ hscheme1 cs1 rs1 h

theorem regexFindAllAux_abs (hostTail : List Char) : ∀ (fuel : Nat)
    (l : List Char) (u : String), u ∈ regexFindAllAux hostTail fuel l →
    isAbsoluteUrl u = true := by
  intro fuel
  induction fuel with
  | zero => intro l u hu; simp [regexFindAllAux] at hu
  | succ f ih =>
    intro l u hu
    cases l with
    | nil => simp [regexFindAllAux] at hu
    | cons c r =>
      have hu2 : u ∈ (match matchUrlAt hostTail (c :: r) with
        | some (m, rest) => (⟨m⟩ : String) :: regexFindAllAux hostTail f rest
        | none => regexFindAllAux hostTail f r) := hu
      cases hmatch : matchUrlAt hostTail (c :: r) with
      | none =>
        rw [hmatch] at hu2
        exact ih r u hu2
      | some p =>
        obtain ⟨mres, rest⟩ := p
        rw [hmatch] at hu2
        dsimp only at hu2
        rcases List.mem_cons.mp hu2 with h1 | h1
        · rw [h1]
          exact matchUrlAt_abs hostTail (c :: r) mres rest hmatch
        · exact ih rest u h1

theorem regexFindAll_abs (hostTail l : List Char) (u : String)
    (hu : u ∈ regexFindAll hostTail l) : isAbsoluteUrl u = true :=
  regexFindAllAux_abs hostTail l.length l u hu

theorem pickBestAux_mem : ∀ (r : List String) (best : String) (bs : Nat),
    pickBestAux best bs r ∈ best :: r := by
  intro r
  induction r with
  | nil => intro best bs; simp [pickBestAux]
  | cons w r1 ih =>
    intro best bs
    show (if bs < score_image_url w then pickBestAux w (score_image_url w) r1
      else pickBestAux best bs r1) ∈ best :: w :: r1
    by_cases hlt : bs < score_image_url w
    · rw [if_pos hlt]
      have := ih w (score_image_url w)
      rcases List.mem_cons.mp this with h1 | h1
      · rw [h1]; simp
      · simp [h1]
    · rw [if_neg hlt]
      have := ih best bs
      rcases List.mem_cons.mp this with h1 | h1
      · rw [h1]; simp
      · simp [h1]

theorem pick_best_image_url_mem (urls : List String) (u : String)
    (h : pick_best_image_url urls = some u) : u ∈ urls := by
  cases urls with
  | nil => exact Option.noConfusion h
  | cons u0 r =>
    have h2 : some (pickBestAux u0 (score_image_url u0) r) = some u := h
    injection h2 with h3
    rw [← h3]
    exact pickBestAux_mem r u0 (score_image_url u0)

theorem cdnScanPick_abs (hostTail html : List Char) (nx : Option ImageRec)
    (hnext : ∀ f, nx = some f → isAbsoluteUrl f.url = true) :
    ∀ f, cdnScanPick hostTail html nx = some f → isAbsoluteUrl f.url = true := by
  intro f h
  unfold cdnScanPick at h
  cases hpick : pick_best_image_url (regexFindAll hostTail html) with
  | none =>
    rw [hpick] at h
    exact hnext f h
  | some best =>
    rw [hpick] at h
    dsimp only at h
    by_cases hbe : best = ""
    · rw [if_pos hbe] at h
      exact hnext f h
    · rw [if_neg hbe] at h
      injection h with h2
      rw [← h2]
      exact regexFindAll_abs hostTail html best
        (pick_best_image_url_mem _ best hpick)

theorem extract_fallback_image_abs (html : List Char) (soup : Node)
    (payloads : List Json) (base : String) (hb : isAbsoluteUrl base = true) :
    ∀ f, extract_fallback_image html soup payloads base = some f →
      isAbsoluteUrl f.url = true := by
  intro f h
  unfold extract_fallback_image at h
  cases hmeta : extract_meta_image soup with
  | some mu =>
    rw [hmeta] at h
    injection h with h2
    rw [← h2]
    exact urljoin_absolute base hb mu
  | none =>
    rw [hmeta] at h
    dsimp only at h
    cases hj : extract_jsonld_image payloads with
    | some ju =>
      rw [hj] at h
      injection h with h2
      rw [← h2]
      exact urljoin_absolute base hb ju
    | none =>
      rw [hj] at h
      dsimp only at h
      cases hlink : extract_image_link soup with
      | mk lo lao =>
        rw [hlink] at h
        cases lo with
        | some lu =>
          dsimp only at h
          injection h with h2
          rw [← h2]
          exact urljoin_absolute base hb lu
        | none =>
          dsimp only at h
          refine cdnScanPick_abs cmsHostTail html _ ?_ f h
          intro f2 h2
          exact cdnScanPick_abs akamaiHostTail html none
            (fun f3 h3 => Option.noConfusion h3) f2 h2


theorem finalize_images_cons (c0 : ImageRec) (cr : List ImageRec)
    (fb : Option ImageRec) (title : Option String) :
    finalize_images (c0 :: cr) fb title = c0 :: cr := by
  cases fb <;> rfl

/-- C2: every entry of the image list returned by `extract_from_html` has an
absolute URL (resolved against the base URL) — both when the list is
collected from the normalized container and when, the collected list being
empty, the single fallback image found by `_extract_fallback_image` is
used; in particular, a relative source `/media/pic.jpg` against the base
`https://trusted.example/en/` yields `https://trusted.example/media/pic.jpg`
in the output, and on a container with no images a CMS image URL found in
the raw HTML is returned as the single (absolute) image with the title as
its alt text. -/
theorem collected_images_absolute :
    (∀ (container soup : Node) (payloads : List Json) (html : List Char)
      (base : String) (title : Option String), isAbsoluteUrl base = true →
      ∀ e ∈ finalize_images
        (collect_images (normalize_images base (normalize_figures base container)))
        (extract_fallback_image html soup payloads base) title,
        isAbsoluteUrl e.url = true) ∧
    collect_images (normalize_images "https://trusted.example/en/"
      (normalize_figures "https://trusted.example/en/"
        (Node.elem 1 "main" []
          [Node.elem 2 "img" [("src", "/media/pic.jpg"), ("alt", "Pic")] []])))
      = [⟨"https://trusted.example/media/pic.jpg", some "Pic", none⟩] ∧
    finalize_images
      (collect_images (normalize_images "https://www.jw.org/en/"
        (normalize_figures "https://www.jw.org/en/"
          (Node.elem 1 "main" [] [Node.elem 2 "p" [] [Node.txt "Body content."]]))))
      (extract_fallback_image
        ("<div> https://cms-imgp.jw-cdn.org/img/p/504000002/univ/art/504000002_univ_sqr_xl.jpg </div>").data
        (Node.elem 0 "html" [] []) [] "https://www.jw.org/en/")
      (some "Sample Title")
      = [⟨"https://cms-imgp.jw-cdn.org/img/p/504000002/univ/art/504000002_univ_sqr_xl.jpg",
          some "Sample Title", none⟩] := by
  refine ⟨?_, by decide, by decide⟩
  intro container soup payloads html base title hb e he
  cases hcol : collect_images (normalize_images base (normalize_figures base container)) with
  | nil =>
    rw [hcol] at he
    cases hfb : extract_fallback_image html soup payloads base with
    | none =>
      rw [hfb] at he
      simp [finalize_images] at he
    | some fb =>
      rw [hfb] at he
      have habs : isAbsoluteUrl fb.url = true :=
        extract_fallback_image_abs html soup payloads base hb fb hfb
      have he2 : e = (if fb.alt.getD "" = "" then { fb with alt := title } else fb) := by
        simpa [finalize_images] using he
      rw [he2]
      by_cases ha : fb.alt.getD "" = ""
      · rw [if_pos ha]
        exact habs
      · rw [if_neg ha]
        exact habs
  | cons c0 cr =>
    rw [hcol] at he
    rw [finalize_images_cons] at he
    rw [← hcol] at he
    cases container with
    | txt s => simp [normalize_figures, normalize_images, collect_images, collectN] at he
    | elem i tg a cs =>
      have he2 : e ∈ collectL (normImagesL base (normFigsL base cs)) := he
      exact collect_absL _ (normImages_okL base hb _) e he2

/-- C2 witness: the universal clause applied at a concrete fallback scenario
(empty container, CMS URL in the raw HTML) — the fallback URL is absolute. -/
theorem collected_images_absolute_witness :
    isAbsoluteUrl "https://cms-imgp.jw-cdn.org/img/p/504000002/univ/art/504000002_univ_sqr_xl.jpg" = true :=
  collected_images_absolute.1
    (Node.elem 1 "main" [] [Node.elem 2 "p" [] [Node.txt "Body content."]])
    (Node.elem 0 "html" [] []) []
    ("<div> https://cms-imgp.jw-cdn.org/img/p/504000002/univ/art/504000002_univ_sqr_xl.jpg </div>").data
    "https://www.jw.org/en/" (some "Sample Title") (by decide)
    ⟨"https://cms-imgp.jw-cdn.org/img/p/504000002/univ/art/504000002_univ_sqr_xl.jpg",
      some "Sample Title", none⟩
    (by decide)

end JWNews
